import Mathlib

/-!
Verification of the transaction-ingestion pipeline of the ascii-art-generator
backend (`src/app/backend/backend-rust`): the event decoder
(`services/event_parser.rs`), the record store (`services/nft_storage.rs`) and
the ingestion coordinator (`services/solana_indexer.rs`) are shallowly embedded
and the spec's testable properties are proved or refuted against the embedding.

Rust strings are modelled as their UTF-8 byte sequences (`List Nat`, each
entry a byte), so byte-indexed slicing, char boundaries and `to_lowercase`
length changes are represented faithfully.  Database time (`DateTime<Utc>`,
`Instant`) is an abstract integer clock supplied by an environment record.
Database errors other than the ones a claim is about are not injected: the
connection pool is modelled as healthy except where stated.
-/

namespace AsciiIngest

/-- A Rust `String` / `&str` / `Vec<u8>` as its byte sequence. -/
abbrev Bytes := List Nat

/-- UTF-8 encoding of one Unicode scalar value (a Rust `char`). -/
def utf8EncodeChar (c : Nat) : Bytes :=
  if c < 0x80 then [c]
  else if c < 0x800 then [0xC0 + c / 64, 0x80 + c % 64]
  else if c < 0x10000 then [0xE0 + c / 4096, 0x80 + c / 64 % 64, 0x80 + c % 64]
  else [0xF0 + c / 262144, 0x80 + c / 4096 % 64, 0x80 + c / 64 % 64, 0x80 + c % 64]

/-- Transcription of a Rust string literal into its UTF-8 bytes. -/
def strB (s : String) : Bytes :=
  (s.data.map (fun c => utf8EncodeChar c.toNat)).flatten

/-- Rust `str::contains(pat)`: substring search over the bytes. -/
def containsSub (h pat : Bytes) : Bool :=
  (List.range (h.length + 1)).any (fun i => pat.isPrefixOf (h.drop i))

/-- Rust `str::find(pat)`: byte index of the first substring occurrence. -/
def findSub (h pat : Bytes) : Option Nat :=
  (List.range (h.length + 1)).find? (fun i => pat.isPrefixOf (h.drop i))

/-- Rust `str::strip_prefix(pat)` (pattern first, subject second). -/
def dropPrefixB (pat s : Bytes) : Option Bytes :=
  if pat.isPrefixOf s then some (s.drop pat.length) else none

/-- ASCII whitespace bytes; the fragment of Rust `char::is_whitespace`
relevant to the inputs in this development (all log payload bytes at the
trim sites are ASCII). -/
def isWsByte (b : Nat) : Bool :=
  b == 9 || b == 10 || b == 11 || b == 12 || b == 13 || b == 32

/-- Rust `str::trim()` on the ASCII-whitespace fragment. -/
def trimB (s : Bytes) : Bytes :=
  ((s.dropWhile isWsByte).reverse.dropWhile isWsByte).reverse

/-- Rust `str::is_char_boundary(i)`: `i` is the length, or a byte below the
length that is not a UTF-8 continuation byte. -/
def isCharBoundary (s : Bytes) (i : Nat) : Bool :=
  if i == s.length then true
  else
    match s.get? i with
    | some b => decide (b < 128) || decide (192 ≤ b)
    | none => false

/-- Rust `&s[i..]`: `none` models the panic on an out-of-range or
non-char-boundary index. -/
def sliceFrom (s : Bytes) (i : Nat) : Option Bytes :=
  if isCharBoundary s i then some (s.drop i) else none

/-- Base64 (standard alphabet) value-to-char table, as in the `base64`
crate used by `event_parser.rs`. -/
def b64EncChar (v : Nat) : Nat :=
  if v < 26 then 65 + v
  else if v < 52 then 97 + (v - 26)
  else if v < 62 then 48 + (v - 52)
  else if v == 62 then 43
  else 47

/-- Base64 char-to-value table; `none` on a byte outside the alphabet. -/
def b64DecChar (c : Nat) : Option Nat :=
  if 65 ≤ c ∧ c ≤ 90 then some (c - 65)
  else if 97 ≤ c ∧ c ≤ 122 then some (26 + (c - 97))
  else if 48 ≤ c ∧ c ≤ 57 then some (52 + (c - 48))
  else if c == 43 then some 62
  else if c == 47 then some 63
  else none

/-- `base64::encode`: standard alphabet with `=` (byte 61) padding. -/
def base64Encode : Bytes → Bytes
  | [] => []
  | [a] => [b64EncChar (a / 4), b64EncChar (a % 4 * 16), 61, 61]
  | [a, b] =>
      [b64EncChar (a / 4), b64EncChar (a % 4 * 16 + b / 16),
       b64EncChar (b % 16 * 4), 61]
  | a :: b :: c :: rest =>
      b64EncChar (a / 4) :: b64EncChar (a % 4 * 16 + b / 16) ::
      b64EncChar (b % 16 * 4 + c / 64) :: b64EncChar (c % 64) :: base64Encode rest

/-- `base64::decode` (crate version 0.13, standard config): padding only at
the end, a final chunk of 2 or 3 chars also accepted unpadded, nonzero
trailing bits rejected. -/
def base64Decode : Bytes → Option Bytes
  | [] => some []
  | [c0, c1] =>
      match b64DecChar c0, b64DecChar c1 with
      | some v0, some v1 =>
          if v1 % 16 == 0 then some [v0 * 4 + v1 / 16] else none
      | _, _ => none
  | [c0, c1, c2] =>
      match b64DecChar c0, b64DecChar c1, b64DecChar c2 with
      | some v0, some v1, some v2 =>
          if v2 % 4 == 0 then some [v0 * 4 + v1 / 16, v1 % 16 * 16 + v2 / 4]
          else none
      | _, _, _ => none
  | c0 :: c1 :: c2 :: c3 :: rest =>
      match b64DecChar c0, b64DecChar c1 with
      | some v0, some v1 =>
          if c2 == 61 then
            if c3 == 61 && rest.isEmpty then
              if v1 % 16 == 0 then some [v0 * 4 + v1 / 16] else none
            else none
          else
            match b64DecChar c2 with
            | some v2 =>
                if c3 == 61 then
                  if rest.isEmpty then
                    if v2 % 4 == 0 then
                      some [v0 * 4 + v1 / 16, v1 % 16 * 16 + v2 / 4]
                    else none
                  else none
                else
                  match b64DecChar c3, base64Decode rest with
                  | some v3, some bs =>
                      some ((v0 * 4 + v1 / 16) :: (v1 % 16 * 16 + v2 / 4) ::
                            (v2 % 4 * 64 + v3) :: bs)
                  | _, _ => none
            | none => none
      | _, _ => none
  | _ => none

def isContB (b : Nat) : Bool := 128 ≤ b && b < 192

/-- Validating UTF-8 decoder (the check performed by `String::from_utf8`,
which Borsh uses to deserialize a `String`): rejects overlong forms,
surrogates and values above U+10FFFF. -/
def utf8Decode : List Nat → Option (List Nat)
  | [] => some []
  | b :: bs =>
      if b < 0x80 then
        match utf8Decode bs with
        | some cs => some (b :: cs)
        | none => none
      else if b < 0xC2 then none
      else if b < 0xE0 then
        match bs with
        | b1 :: rest =>
            if isContB b1 then
              match utf8Decode rest with
              | some cs => some (((b - 0xC0) * 64 + (b1 - 0x80)) :: cs)
              | none => none
            else none
        | [] => none
      else if b < 0xF0 then
        match bs with
        | b1 :: b2 :: rest =>
            if (if b == 0xE0 then decide (0xA0 ≤ b1) && decide (b1 < 0xC0)
                else if b == 0xED then decide (0x80 ≤ b1) && decide (b1 < 0xA0)
                else isContB b1) && isContB b2 then
              match utf8Decode rest with
              | some cs =>
                  some (((b - 0xE0) * 4096 + (b1 - 0x80) * 64 + (b2 - 0x80)) :: cs)
              | none => none
            else none
        | _ => none
      else if b < 0xF5 then
        match bs with
        | b1 :: b2 :: b3 :: rest =>
            if (if b == 0xF0 then decide (0x90 ≤ b1) && decide (b1 < 0xC0)
                else if b == 0xF4 then decide (0x80 ≤ b1) && decide (b1 < 0x90)
                else isContB b1) && isContB b2 && isContB b3 then
              match utf8Decode rest with
              | some cs =>
                  some (((b - 0xF0) * 262144 + (b1 - 0x80) * 4096 +
                         (b2 - 0x80) * 64 + (b3 - 0x80)) :: cs)
              | none => none
            else none
        | _ => none
      else none

/-- UTF-8 validity, as checked by `String::from_utf8`. -/
def utf8Valid (s : Bytes) : Bool := (utf8Decode s).isSome

/-- Rust `char::to_lowercase` restricted to the code points exercised in this
development: ASCII letters and U+0130 (which expands to the two code points
U+0069 U+0307, lengthening the UTF-8 form — the behaviour the panic analysis
depends on). Code points outside this fragment are mapped to themselves. -/
def lowerCp (c : Nat) : List Nat :=
  if 65 ≤ c ∧ c ≤ 90 then [c + 32]
  else if c == 0x130 then [0x69, 0x307]
  else [c]

/-- Rust `str::to_lowercase` on the modelled fragment.  A Rust `String` is
always valid UTF-8, so the `none` branch is unreachable on real inputs. -/
def toLowercaseB (s : Bytes) : Bytes :=
  match utf8Decode s with
  | some cs => ((cs.map lowerCp).flatten.map utf8EncodeChar).flatten
  | none => s

/-- Marker for a Rust panic in a modelled computation. -/
inductive RPanic
  | panic
deriving DecidableEq, Repr

/-- Byte index of the first char failing `is_ascii_digit` — the
`remaining.find(|c: char| !c.is_ascii_digit())` calls of
`extract_lamports_from_log` / `extract_tokens_from_log`.  ASCII digits are
single bytes, and any non-digit lead byte stops the scan, so a byte walk is
exact on valid UTF-8. -/
def findNonDigitAux : Bytes → Nat → Option Nat
  | [], _ => none
  | b :: rest, i => if 48 ≤ b ∧ b ≤ 57 then findNonDigitAux rest (i + 1) else some i

/-- Rust `str::parse::<i64>` on a slice that (by construction at its call
sites) contains only ASCII digit bytes: empty input and overflow beyond
`i64::MAX` fail. -/
def parseI64Digits (s : Bytes) : Option Int :=
  if s.isEmpty then none
  else if s.all (fun b => decide (48 ≤ b) && decide (b ≤ 57)) then
    let n := s.foldl (fun acc b => acc * 10 + (b - 48)) 0
    if n ≤ 2 ^ 63 - 1 then some (Int.ofNat n) else none
  else none

/-- The shared shape of `extract_lamports_from_log` and
`extract_tokens_from_log`: for each pattern, search the lowercased log, then
slice the ORIGINAL log at the byte offset found in the lowercased copy —
`&log[value_start..]` — which panics when lowercasing changed byte lengths
(modelled by `sliceFrom` returning `none`). -/
def extractNumLoop (logLower log : Bytes) : List Bytes → Except RPanic (Option Int)
  | [] => .ok none
  | pat :: pats =>
      match findSub logLower pat with
      | some start =>
          match sliceFrom log (start + pat.length) with
          | none => .error .panic
          | some remaining =>
              let e := (findNonDigitAux remaining 0).getD remaining.length
              match parseI64Digits (remaining.take e) with
              | some amount => .ok (some amount)
              | none => extractNumLoop logLower log pats
      | none => extractNumLoop logLower log pats

/-- `EventParserService::extract_lamports_from_log`. -/
def extract_lamports_from_log (log : Bytes) : Except RPanic (Option Int) :=
  extractNumLoop (toLowercaseB log) log
    [strB "lamports: ", strB "amount: ", strB "sol: "]

/-- `EventParserService::extract_tokens_from_log` (patterns are themselves
lowercased before searching). -/
def extract_tokens_from_log (log : Bytes) : Except RPanic (Option Int) :=
  extractNumLoop (toLowercaseB log) log
    [toLowercaseB (strB "tokens: "), toLowercaseB (strB "tokenAmount: "),
     toLowercaseB (strB "token_amount: ")]

/-- Little-endian byte encoding, `k` bytes. -/
def leBytes : Nat → Nat → Bytes
  | 0, _ => []
  | k + 1, n => n % 256 :: leBytes k (n / 256)

/-- Value of a little-endian byte sequence. -/
def leValue (bs : Bytes) : Nat := bs.foldr (fun b acc => b + 256 * acc) 0

/-- A `u64` reinterpreted as `i64` (`as i64` in Rust). -/
def u64AsI64 (n : Nat) : Int :=
  if n < 2 ^ 63 then (n : Int) else (n : Int) - 2 ^ 64

/-- Anchor `MintEvent` discriminator (event_parser.rs line 19). -/
def mintEventDisc : Bytes := [62, 73, 213, 84, 217, 70, 37, 55]

/-- Anchor `BuybackEvent` discriminator (event_parser.rs line 20). -/
def buybackEventDisc : Bytes := [73, 203, 66, 140, 17, 155, 53, 84]

/-- `RawMintEvent`: pubkeys as their 32 raw bytes, strings as UTF-8 bytes. -/
structure RawMintEvent where
  minter : Bytes
  mint : Bytes
  name : Bytes
  symbol : Bytes
  uri : Bytes
  timestamp : Int
deriving DecidableEq, Repr

/-- `RawBuybackEvent` for Borsh deserialization. -/
structure RawBuybackEvent where
  amount_sol : Nat
  token_amount : Nat
  timestamp : Int
deriving DecidableEq, Repr

/-- Borsh encoding of a `String`: `u32` little-endian length then the bytes
(the on-chain ABI layout; used to state what a correctly encoded payload is). -/
def borshEncodeString (s : Bytes) : Bytes := leBytes 4 s.length ++ s

/-- Borsh encoding of `RawMintEvent` per the ABI field order; the `i64` is
the two's-complement little-endian form. -/
def borshEncodeMint (e : RawMintEvent) : Bytes :=
  e.minter ++ (e.mint ++ (borshEncodeString e.name ++
    (borshEncodeString e.symbol ++ (borshEncodeString e.uri ++
      leBytes 8 (e.timestamp % 2 ^ 64).toNat))))

/-- Borsh `String` deserialization step: length prefix, bytes, UTF-8 check;
returns the string bytes and the remaining input. -/
def borshDecodeString (bs : Bytes) : Option (Bytes × Bytes) :=
  if bs.length < 4 then none
  else
    let len := leValue (bs.take 4)
    let rest := bs.drop 4
    if rest.length < len then none
    else if utf8Valid (rest.take len) then some (rest.take len, rest.drop len)
    else none

/-- `RawMintEvent::try_from_slice`: sequential field reads, all input
consumed. -/
def borshDecodeMint (bs : Bytes) : Option RawMintEvent :=
  if bs.length < 64 then none
  else
    let minter := bs.take 32
    let mint := (bs.drop 32).take 32
    match borshDecodeString (bs.drop 64) with
    | none => none
    | some (name, r1) =>
        match borshDecodeString r1 with
        | none => none
        | some (symbol, r2) =>
            match borshDecodeString r2 with
            | none => none
            | some (uri, r3) =>
                if r3.length = 8 then
                  let n := leValue r3
                  some ⟨minter, mint, name, symbol, uri,
                        if n < 2 ^ 63 then (n : Int) else (n : Int) - 2 ^ 64⟩
                else none

/-- `RawBuybackEvent::try_from_slice`: two `u64`s and an `i64`, all input
consumed. -/
def borshDecodeBuyback (bs : Bytes) : Option RawBuybackEvent :=
  if bs.length = 24 then
    let n := leValue ((bs.drop 16).take 8)
    some ⟨leValue (bs.take 8), leValue ((bs.drop 8).take 8),
          if n < 2 ^ 63 then (n : Int) else (n : Int) - 2 ^ 64⟩
  else none

/-- Base58 alphabet used by `Pubkey::to_string`. -/
def base58Alphabet : Bytes :=
  strB "123456789ABCDEFGHJKLMNPQRSTUVWXYZabcdefghijkmnopqrstuvwxyz"

/-- Little-endian base-58 digits of `n`; fuel-bounded divmod loop (the fuel
passed at the call site strictly dominates the digit count). -/
def b58DigitsF : Nat → Nat → List Nat
  | 0, _ => []
  | _, 0 => []
  | f + 1, n => n % 58 :: b58DigitsF f (n / 58)

/-- Big-endian value of a byte sequence. -/
def beValue (bs : Bytes) : Nat := bs.foldl (fun acc b => acc * 256 + b) 0

/-- `Pubkey::to_string` (bs58 encoding): one `'1'` per leading zero byte,
then the base-58 digits of the big-endian value. -/
def base58Encode (bs : Bytes) : Bytes :=
  let zeros := (bs.takeWhile (· == 0)).length
  let digits := (b58DigitsF (2 * bs.length + 1) (beValue bs)).reverse
  List.replicate zeros 49 ++ digits.map (fun d => base58Alphabet.getD d 0)

/-- `models::nft::MintEvent` (string fields as UTF-8 bytes). -/
structure MintEvent where
  minter : Bytes
  mint : Bytes
  name : Bytes
  symbol : Bytes
  uri : Bytes
  timestamp : Int
deriving DecidableEq, Repr

/-- `models::buyback_event::BuybackEventData`. -/
structure BuybackEventData where
  amount_sol : Int
  token_amount : Int
  timestamp : Int
deriving DecidableEq, Repr

/-- The `MintEvent` built from a decoded `RawMintEvent` (pubkeys rendered
with `Pubkey::to_string`). -/
def mintEventOfRaw (raw : RawMintEvent) : MintEvent :=
  ⟨base58Encode raw.minter, base58Encode raw.mint, raw.name, raw.symbol,
   raw.uri, raw.timestamp⟩

/-- `solana_transaction_status::UiMessage`: account keys of a JSON-encoded
transaction (`pubkey` strings already extracted). -/
inductive UiMessage
  | parsed (accountKeys : List Bytes)
  | raw (accountKeys : List Bytes)
deriving DecidableEq, Repr

/-- `solana_transaction_status::EncodedTransaction` shapes distinguished by
`extract_accounts_from_transaction`. -/
inductive EncodedTx
  | json (message : UiMessage)
  | legacyBinary
  | binary
deriving DecidableEq, Repr

/-- Transaction metadata: `log_messages` is an `OptionSerializer`. -/
structure TxMeta where
  logMessages : Option (List Bytes)
deriving DecidableEq, Repr

/-- `EncodedConfirmedTransactionWithStatusMeta`, restricted to the fields the
parser reads. -/
structure EncodedConfirmedTx where
  meta : Option TxMeta
  transaction : EncodedTx
deriving DecidableEq, Repr

/-- `EventParserService::extract_log_messages`. -/
def extract_log_messages (meta : TxMeta) : List Bytes := meta.logMessages.getD []

/-- The `"Program data:"` marker tested with `contains`. -/
def pdataMark : Bytes := strB "Program data:"

/-- The `"Program data: "` marker stripped with `strip_prefix`. -/
def pdataMarkSp : Bytes := strB "Program data: "

/-- `format!("Program \x7b\x7d invoke", program_id)`. -/
def invokeMark (pid : Bytes) : Bytes := strB "Program " ++ pid ++ strB " invoke"

/-- `format!("Program \x7b\x7d success", program_id)`. -/
def successMark (pid : Bytes) : Bytes := strB "Program " ++ pid ++ strB " success"

/-- `EventParserService::try_parse_mint_event_from_log` (the debug logging,
including its byte-slice of the payload, is omitted as in a configuration
with logging disabled). -/
def try_parse_mint_event_from_log (log : Bytes) : Option MintEvent :=
  match dropPrefixB pdataMarkSp log with
  | none => none
  | some rest =>
      match base64Decode (trimB rest) with
      | none => none
      | some data =>
          if data.length < 8 then none
          else if data.take 8 = mintEventDisc then
            match borshDecodeMint (data.drop 8) with
            | some raw => some (mintEventOfRaw raw)
            | none => none
          else none

/-- `EventParserService::try_parse_buyback_event_from_log`. -/
def try_parse_buyback_event_from_log (log : Bytes) : Option BuybackEventData :=
  match dropPrefixB pdataMarkSp log with
  | none => none
  | some rest =>
      match base64Decode (trimB rest) with
      | none => none
      | some data =>
          if data.length < 8 then none
          else if data.take 8 = buybackEventDisc then
            match borshDecodeBuyback (data.drop 8) with
            | some raw =>
                some ⟨u64AsI64 raw.amount_sol, u64AsI64 raw.token_amount,
                      raw.timestamp⟩
            | none => none
          else none

/-- The tagged-decode scan of `parse_mint_event`: per line, update the
invoke flag, clear it on the success marker, and attempt a tagged decode on
`Program data:` lines while inside the program's range. -/
def mintScanLogs (pid : Bytes) : List Bytes → Bool → Option MintEvent
  | [], _ => none
  | log :: rest, flag0 =>
      let flag1 := if containsSub log (invokeMark pid) then true else flag0
      let flag2 := if containsSub log (successMark pid) then false else flag1
      match
        (if containsSub log pdataMark && flag2 then
          try_parse_mint_event_from_log log
        else none) with
      | some e => some e
      | none => mintScanLogs pid rest flag2

/-- The tagged-decode scan of `parse_buyback_event`. -/
def buybackScanLogs (pid : Bytes) : List Bytes → Bool → Option BuybackEventData
  | [], _ => none
  | log :: rest, flag0 =>
      let flag1 := if containsSub log (invokeMark pid) then true else flag0
      let flag2 := if containsSub log (successMark pid) then false else flag1
      match
        (if containsSub log pdataMark && flag2 then
          try_parse_buyback_event_from_log log
        else none) with
      | some e => some e
      | none => buybackScanLogs pid rest flag2

/-- Pattern loop of `EventParserService::extract_field_from_log`.  The
`&log[value_start..]` slice there is at a match offset found in `log`
itself, hence always a char boundary: modelled as `drop`. -/
def fieldLoop (log : Bytes) : List Bytes → Option Bytes
  | [] => none
  | pat :: pats =>
      match findSub log pat with
      | some start =>
          let remaining := log.drop (start + pat.length)
          let e := (((findSub remaining [34]).orElse
                      (fun _ => findSub remaining [44])).orElse
                      (fun _ => findSub remaining [32])).getD remaining.length
          let value := trimB (remaining.take e)
          if value.isEmpty then fieldLoop log pats else some value
      | none => fieldLoop log pats

/-- `EventParserService::extract_field_from_log`. -/
def extract_field_from_log (log field : Bytes) : Option Bytes :=
  fieldLoop log
    [field ++ strB ": \"", field ++ strB "=\"", field ++ strB ": ",
     field ++ strB "="]

/-- `EventParserService::extract_accounts_from_transaction`: first two
account keys of a JSON-encoded message; binary encodings yield nothing. -/
def extract_accounts_from_transaction (tx : EncodedConfirmedTx) :
    Option (Bytes × Bytes) :=
  match tx.transaction with
  | .json (.parsed keys) =>
      match keys.get? 0, keys.get? 1 with
      | some a, some b => some (a, b)
      | _, _ => none
  | .json (.raw keys) =>
      match keys.get? 0, keys.get? 1 with
      | some a, some b => some (a, b)
      | _, _ => none
  | _ => none

/-- State fold of `parse_mint_event_fallback` over the log lines: the
mint-instruction flag latches on, and once it is on each field extraction
that succeeds overwrites the stored value. -/
def mintFallbackScan :
    List Bytes → Bool × Option Bytes × Option Bytes × Option Bytes →
    Bool × Option Bytes × Option Bytes × Option Bytes
  | [], st => st
  | log :: rest, (found0, name0, symbol0, uri0) =>
      let found := found0 || containsSub log (strB "Instruction: Mint") ||
        containsSub log (strB "Instruction: mint") ||
        containsSub log (strB "mint_nft")
      let name := if found then
          (extract_field_from_log log (strB "name")).orElse (fun _ => name0)
        else name0
      let symbol := if found then
          (extract_field_from_log log (strB "symbol")).orElse (fun _ => symbol0)
        else symbol0
      let uri := if found then
          (extract_field_from_log log (strB "uri")).orElse (fun _ => uri0)
        else uri0
      mintFallbackScan rest (found, name, symbol, uri)

/-- `EventParserService::parse_mint_event_fallback`; `now` is the
`chrono::Utc::now().timestamp()` value synthesized for the event. -/
def parse_mint_event_fallback (logs : List Bytes) (tx : EncodedConfirmedTx)
    (now : Int) : Option MintEvent :=
  match mintFallbackScan logs (false, none, none, none) with
  | (found, name, symbol, uri) =>
      if found && name.isSome && symbol.isSome then
        match extract_accounts_from_transaction tx with
        | none => none
        | some (minter, mint) =>
            some ⟨minter, mint, name.getD [], symbol.getD [], uri.getD [], now⟩
      else none

/-- State fold of `parse_buyback_event_fallback`: on a line mentioning
buyback or swap, try both amount extractions (each can panic). -/
def buybackFallbackScan :
    List Bytes → Option Int × Option Int →
    Except RPanic (Option Int × Option Int)
  | [], st => .ok st
  | log :: rest, (sol0, tok0) =>
      if containsSub log (strB "buyback") || containsSub log (strB "Buyback") ||
          containsSub log (strB "swap") then
        match extract_lamports_from_log log with
        | .error p => .error p
        | .ok r1 =>
            match extract_tokens_from_log log with
            | .error p => .error p
            | .ok r2 =>
                buybackFallbackScan rest (r1.orElse (fun _ => sol0),
                  r2.orElse (fun _ => tok0))
      else buybackFallbackScan rest (sol0, tok0)

/-- `EventParserService::parse_buyback_event_fallback`. -/
def parse_buyback_event_fallback (logs : List Bytes) (now : Int) :
    Except RPanic (Option BuybackEventData) :=
  match buybackFallbackScan logs (none, none) with
  | .error p => .error p
  | .ok (some sol, some tok) => .ok (some ⟨sol, tok, now⟩)
  | .ok _ => .ok none

/-- `EventParserService::parse_mint_event`. -/
def parse_mint_event (pid : Bytes) (now : Int) (tx : EncodedConfirmedTx) :
    Option MintEvent :=
  match tx.meta with
  | none => none
  | some meta =>
      let logs := extract_log_messages meta
      match mintScanLogs pid logs false with
      | some e => some e
      | none => parse_mint_event_fallback logs tx now

/-- `EventParserService::parse_buyback_event`; a `.error` result models a
Rust panic. -/
def parse_buyback_event (pid : Bytes) (now : Int) (tx : EncodedConfirmedTx) :
    Except RPanic (Option BuybackEventData) :=
  match tx.meta with
  | none => .ok none
  | some meta =>
      let logs := extract_log_messages meta
      match buybackScanLogs pid logs false with
      | some e => .ok (some e)
      | none => parse_buyback_event_fallback logs now

/-- The program id the service is configured with
(config.rs `SOLANA_PROGRAM_ID` default). -/
def programIdB : Bytes := strB "56cKjpFg9QjDsRCPrHnj1efqZaw2cvfodNhz4ramoXxt"

/-- `AppError` (error.rs). -/
inductive AppError
  | database (msg : String)
  | solanaRpc (msg : String)
  | notFound (msg : String)
  | validation (msg : String)
  | internalErr (msg : String)
  | rateLimitExceeded
  | config (msg : String)
  | serialization (msg : String)
deriving DecidableEq, Repr

/-- `models::nft::Nft` row.  `Uuid` is a `Nat` drawn fresh from the
environment; `DateTime<Utc>` / event times are an abstract integer
millisecond clock. -/
structure Nft where
  id : Nat
  mint : String
  minter : String
  name : String
  symbol : String
  uri : String
  transaction_signature : String
  slot : Int
  block_time : Option Int
  timestamp : Int
  created_at : Int
  updated_at : Int
deriving DecidableEq, Repr

/-- `models::user_level::UserLevel` row. -/
structure UserLevel where
  wallet_address : String
  total_mints : Int
  level : Int
  experience : Int
  next_level_mints : Int
  created_at : Int
  updated_at : Int
  version : Int
deriving DecidableEq, Repr

/-- `models::buyback_event::BuybackEvent` row. -/
structure BuybackEvent where
  id : Nat
  transaction_signature : String
  amount_sol : Int
  token_amount : Int
  timestamp : Int
  slot : Int
  block_time : Option Int
  created_at : Int
deriving DecidableEq, Repr

/-- `models::nft::CreateNft`. -/
structure CreateNft where
  mint : String
  minter : String
  name : String
  symbol : String
  uri : String
  transaction_signature : String
  slot : Int
  block_time : Option Int
  timestamp : Int
deriving DecidableEq, Repr

/-- `models::buyback_event::CreateBuybackEvent`. -/
structure CreateBuybackEvent where
  transaction_signature : String
  amount_sol : Int
  token_amount : Int
  timestamp : Int
  slot : Int
  block_time : Option Int
deriving DecidableEq, Repr

/-- The three tables of the relational store, rows in insertion order. -/
structure Db where
  nfts : List Nft
  user_levels : List UserLevel
  buyback_events : List BuybackEvent
deriving DecidableEq, Repr

/-- `models::level_calculator::LevelData`. -/
structure LevelData where
  wallet_address : String
  total_mints : Int
  level : Int
  experience : Int
  next_level_mints : Int
deriving DecidableEq, Repr

/-- `models::level_calculator::calculate_level`: level pinned to 1,
experience equal to the mint count, no next-level threshold. -/
def calculate_level (mint_count : Int) : LevelData :=
  ⟨"", mint_count, 1, mint_count, 0⟩

/-- Result of `RpcClient::get_token_account_balance` on the associated token
account: `ok amount` carries the parsed amount (`balance.amount.parse()`
with `unwrap_or(0)` applied), `err` is any RPC failure — including a plain
network failure and the account simply not existing. -/
inductive BalanceResult
  | ok (amount : Nat)
  | err
deriving DecidableEq, Repr

/-- External-world inputs of one store operation: pubkey parsability, the
balance oracle keyed by (mint, owner), the clock, the next fresh row id,
and whether acquiring a pool connection fails. -/
structure StoreEnv where
  rpcPresent : Bool
  parseOk : String → Bool
  balance : String → String → BalanceResult
  now : Int
  freshId : Nat
  poolFail : Bool

/-- `NftStorageService::is_nft_owned_by_wallet`: note that an RPC error on
the balance fetch is swallowed into `Ok(false)`. -/
def is_nft_owned_by_wallet (env : StoreEnv) (mint owner : String) :
    Except AppError Bool :=
  if !env.rpcPresent then .error (.config "RPC client not configured")
  else if !env.parseOk mint then .error (.validation "Invalid mint address")
  else if !env.parseOk owner then .error (.validation "Invalid owner address")
  else
    match env.balance mint owner with
    | .ok amount => .ok (decide (amount > 0))
    | .err => .ok false

/-- `NftStorageService::recalculate_user_level`: count the owner's rows,
delete the level row at zero, otherwise upsert the recomputed level. -/
def recalculate_user_level (env : StoreEnv) (db : Db) (wallet : String) : Db :=
  let totalMints : Nat := (db.nfts.filter (fun n => n.minter == wallet)).length
  if totalMints == 0 then
    { db with user_levels :=
        db.user_levels.filter (fun l => l.wallet_address != wallet) }
  else
    let ld := calculate_level (totalMints : Int)
    if db.user_levels.any (fun l => l.wallet_address == wallet) then
      { db with user_levels := db.user_levels.map (fun l =>
          if l.wallet_address == wallet then
            { l with total_mints := ld.total_mints, level := ld.level,
                     experience := ld.experience,
                     next_level_mints := ld.next_level_mints,
                     updated_at := env.now, version := l.version + 1 }
          else l) }
    else
      { db with user_levels := db.user_levels ++
          [⟨wallet, ld.total_mints, ld.level, ld.experience,
            ld.next_level_mints, env.now, env.now, 1⟩] }

/-- The fresh `nfts` row `save_nft` builds before inserting. -/
def newNftRow (env : StoreEnv) (c : CreateNft) : Nft :=
  ⟨env.freshId, c.mint, c.minter, c.name, c.symbol, c.uri,
   c.transaction_signature, c.slot, c.block_time, c.timestamp, env.now,
   env.now⟩

/-- `NftStorageService::save_nft`.  The pair carries the operation result and
the store state after the call.  The swallowed error of the trailing
`recalculate_user_level` cannot occur in the model (no failure injection on
that query). -/
def save_nft (env : StoreEnv) (db : Db) (c : CreateNft) :
    Except AppError Nft × Db :=
  if env.poolFail then (.error (.database "pool"), db)
  else
    match db.nfts.find? (fun n => n.mint == c.mint) with
    | some row => (.ok row, db)
    | none =>
        let verdict : Except AppError Unit :=
          if env.rpcPresent then
            match is_nft_owned_by_wallet env c.mint c.minter with
            | .ok true => .ok ()
            | .ok false => .error (.validation "NFT not owned by minter")
            | .error _ => .ok ()
          else .ok ()
        match verdict with
        | .error e => (.error e, db)
        | .ok _ =>
            let row := newNftRow env c
            let db1 := { db with nfts := db.nfts ++ [row] }
            (.ok row, recalculate_user_level env db1 c.minter)

/-- `NftStorageService::save_buyback_event`. -/
def save_buyback_event (env : StoreEnv) (db : Db) (c : CreateBuybackEvent) :
    Except AppError BuybackEvent × Db :=
  if env.poolFail then (.error (.database "pool"), db)
  else
    match db.buyback_events.find?
        (fun b => b.transaction_signature == c.transaction_signature) with
    | some row => (.ok row, db)
    | none =>
        let row : BuybackEvent := ⟨env.freshId, c.transaction_signature,
          c.amount_sol, c.token_amount, c.timestamp, c.slot, c.block_time,
          env.now⟩
        (.ok row, { db with buyback_events := db.buyback_events ++ [row] })

/-- Stable insertion of an `Nft` row into a list ascending by `updated_at`. -/
def insertByUpd (a : Nft) : List Nft → List Nft
  | [] => [a]
  | b :: bs =>
      if b.updated_at ≤ a.updated_at then b :: insertByUpd a bs
      else a :: b :: bs

/-- `ORDER BY updated_at ASC` (deterministic model of the SQL sort; the tie
order is unspecified in SQL and irrelevant to the claims, which use distinct
`updated_at` values). -/
def sortByUpd : List Nft → List Nft
  | [] => []
  | a :: rest => insertByUpd a (sortByUpd rest)

/-- `BATCH_SIZE` (nft_storage.rs line 51). -/
def cleanupBatchSize : Nat := 50

/-- `VERIFICATION_AGE_DAYS` in abstract clock units (one day of
milliseconds). -/
def verificationAgeMs : Int := 86400000

/-- One `SELECT ... WHERE updated_at < threshold ORDER BY updated_at ASC
LIMIT 50 OFFSET offset` of the sweep. -/
def cleanupQueryBatch (db : Db) (threshold : Int) (offset : Nat) : List Nft :=
  ((sortByUpd (db.nfts.filter (fun n => n.updated_at < threshold))).drop
    offset).take cleanupBatchSize

/-- Body of one sweep batch: collect the ids whose ownership check returned
`Ok(false)`, look up the distinct affected minters, delete the rows, then
recalculate each affected minter's level. -/
def cleanupBatchStep (env : StoreEnv) (db : Db) (rows : List Nft) : Db :=
  let toRemove : List Nat :=
    if env.rpcPresent then
      (rows.filter (fun n =>
        match is_nft_owned_by_wallet env n.mint n.minter with
        | .ok false => true
        | _ => false)).map (·.id)
    else []
  if toRemove.isEmpty then db
  else
    let affected :=
      ((db.nfts.filter (fun n => toRemove.contains n.id)).map
        (·.minter)).dedup
    let keep := db.nfts.filter (fun n => !(toRemove.contains n.id))
    let db1 := { db with nfts := keep }
    affected.foldl (fun d w => recalculate_user_level env d w) db1

/-- The batched sweep loop of `cleanup_burned_nfts`: query at the current
offset, break on an empty batch, process, advance the offset by the batch
size, break when the batch was short.  The fuel passed at the call site
strictly dominates the iteration count (each continuing iteration needs a
full batch at an offset that grows by 50). -/
def cleanupLoop (env : StoreEnv) (threshold : Int) :
    Nat → Db → Nat → Db
  | 0, db, _ => db
  | fuel + 1, db, offset =>
      let rows := cleanupQueryBatch db threshold offset
      if rows.isEmpty then db
      else
        let db' := cleanupBatchStep env db rows
        if rows.length < cleanupBatchSize then db'
        else cleanupLoop env threshold fuel db' (offset + cleanupBatchSize)

/-- `NftStorageService::cleanup_burned_nfts`.  The triple carries the
result, the `cleanup_running` flag as left on return, and the store state.
The only modelled error path is the pool acquisition at line 122, which in
the source returns through `?` before the flag-reset block. -/
def cleanup_burned_nfts (env : StoreEnv) (running : Bool) (db : Db) :
    Except AppError Unit × Bool × Db :=
  if running then (.ok (), true, db)
  else if env.poolFail then (.error (.database "pool"), true, db)
  else
    let threshold := env.now - verificationAgeMs
    (.ok (), false, cleanupLoop env threshold (db.nfts.length + 1) db 0)

/-- `SolanaIndexerService` configuration constants (solana_indexer.rs lines
132-140). -/
def maxCacheSize : Nat := 100000

/-- `max_retries` (solana_indexer.rs line 137). -/
def maxRetries : Nat := 5

/-- `retry_delay_ms` (solana_indexer.rs line 138). -/
def retryDelayMs : Nat := 2000

/-- The `processed_signatures` map: signature to `Instant`, modelled as an
association list in insertion order (a `HashMap` itself is unordered; all
order-sensitive reasoning below goes through timestamps only, and the
claims use distinct timestamps). -/
abbrev SigCache := List (String × Nat)

/-- `HashMap::insert`: update in place or append. -/
def hmInsert (c : SigCache) (k : String) (v : Nat) : SigCache :=
  if c.any (fun p => p.1 == k) then
    c.map (fun p => if p.1 == k then (p.1, v) else p)
  else c ++ [(k, v)]

/-- Stable insertion into a list ascending by timestamp. -/
def insertByTime (a : String × Nat) : SigCache → SigCache
  | [] => [a]
  | b :: bs => if b.2 ≤ a.2 then b :: insertByTime a bs else a :: b :: bs

/-- `entries.sort_by(|a, b| a.1.cmp(&b.1))`: sort the cache entries
ascending by timestamp. -/
def sortByTime : SigCache → SigCache
  | [] => []
  | a :: rest => insertByTime a (sortByTime rest)

/-- `SolanaIndexerService::add_processed_signature` with the cache bound as
an explicit argument (the service field `max_cache_size`, set to
`maxCacheSize` in `new`): insert, then when the size exceeds the bound evict
the oldest entries down to three quarters of the bound. -/
def add_processed_signature (maxCache : Nat) (c : SigCache) (sig : String)
    (now : Nat) : SigCache :=
  let c1 := hmInsert c sig now
  if c1.length > maxCache then
    let target := maxCache * 3 / 4
    let entries := sortByTime c1
    let toRemove := c1.length - target
    let victims := (entries.take toRemove).map Prod.fst
    c1.filter (fun p => !(victims.contains p.1))
  else c1

/-- `IndexerMetrics`. -/
structure Metrics where
  total_processed : Nat
  total_errors : Nat
  total_retries : Nat
deriving DecidableEq, Repr

/-- The per-signature retry loop of `start_polling` (lines 332-363), driven
by an oracle giving the outcome of `fetch_and_process_transaction` at each
attempt.  Returns attempts made, retries counted into the metrics, the
sleeps performed (`retry_delay_ms * (attempt + 1)`), and whether some
attempt succeeded.  The first argument is the remaining number of attempts,
the second the current attempt index. -/
def retryGo (outcome : Nat → Except AppError Unit) :
    Nat → Nat → Nat × Nat × List Nat × Bool
  | 0, _ => (0, 0, [], false)
  | remaining + 1, attempt =>
      match outcome attempt with
      | .ok _ => (1, 0, [], true)
      | .error _ =>
          if remaining > 0 then
            match retryGo outcome remaining (attempt + 1) with
            | (a, r, ds, s) => (a + 1, r + 1, retryDelayMs * (attempt + 1) :: ds, s)
          else (1, 0, [], false)

/-- The full `for attempt in 0..max_retries` loop. -/
def processWithRetries (outcome : Nat → Except AppError Unit) :
    Nat × Nat × List Nat × Bool :=
  retryGo outcome maxRetries 0

/-- One signature's handling inside a poll tick (lines 306-385): skip when
already processed or mid-processing, otherwise run the retry loop; on
success insert into the processed cache — a plain `HashMap::insert`, not
`add_processed_signature` — and bump the metrics. -/
def pollProcessSignature (outcome : Nat → Except AppError Unit)
    (processed : SigCache) (processing : List String) (m : Metrics)
    (sig : String) (now : Nat) : SigCache × List String × Metrics :=
  if processed.any (fun p => p.1 == sig) then (processed, processing, m)
  else if processing.contains sig then (processed, processing, m)
  else
    match processWithRetries outcome with
    | (_, retries, _, success) =>
        let m1 := { m with total_retries := m.total_retries + retries }
        if success then
          (hmInsert processed sig now, processing,
           { m1 with total_processed := m1.total_processed + 1 })
        else
          (processed, processing,
           { m1 with total_errors := m1.total_errors + 1 })

/-- Number of `nfts` rows with a given mint address. -/
def mintCount (db : Db) (m : String) : Nat :=
  (db.nfts.filter (fun n => n.mint == m)).length

/-- Number of `buyback_events` rows with a given transaction signature. -/
def buybackSigCount (db : Db) (s : String) : Nat :=
  (db.buyback_events.filter (fun b => b.transaction_signature == s)).length

/-- Whether a `user_levels` row exists for an owner. -/
def levelRowExists (db : Db) (w : String) : Bool :=
  db.user_levels.any (fun l => l.wallet_address == w)

/-- Number of `nfts` rows minted by an owner. -/
def minterCount (db : Db) (w : String) : Nat :=
  (db.nfts.filter (fun n => n.minter == w)).length

/-- The OwnerLevel existence invariant: a `user_levels` row exists for an
owner exactly when the owner has at least one `nfts` row. -/
def LevelInv (db : Db) : Prop :=
  ∀ w, levelRowExists db w = true ↔ 0 < minterCount db w

def envW : StoreEnv := ⟨false, fun _ => true, fun _ _ => .err, 1000, 7, false⟩

/-- The empty store. -/
def dbEmpty : Db := ⟨[], [], []⟩

/-- A concrete mint candidate. -/
def cNftW : CreateNft := ⟨"m1", "w1", "n", "s", "u", "sig1", 5, none, 42⟩

/-- The row `save_nft envW dbEmpty cNftW` inserts. -/
def rowW : Nft := ⟨7, "m1", "w1", "n", "s", "u", "sig1", 5, none, 42, 1000, 1000⟩

/-- The store after that insert. -/
def dbW : Db := ⟨[rowW], [⟨"w1", 1, 1, 1, 0, 1000, 1000, 1⟩], []⟩

/-- A concrete buyback candidate. -/
def cBbW : CreateBuybackEvent := ⟨"sigB", 10, 20, 30, 6, none⟩

/-- The row `save_buyback_event envW dbEmpty cBbW` inserts. -/
def bbRowW : BuybackEvent := ⟨7, "sigB", 10, 20, 30, 6, none, 1000⟩

/-- The store after that insert. -/
def dbBbW : Db := ⟨[], [], [bbRowW]⟩

/-- A store environment whose pool acquisition fails. -/
def envPoolFail : StoreEnv := ⟨false, fun _ => true, fun _ _ => .err, 1000, 7, true⟩

/-- A store environment for the sweep: RPC present, every balance fetch
reporting amount 0 (item no longer held), clock at two days. -/
def envSweep : StoreEnv := ⟨true, fun _ => true, fun _ _ => .ok 0, 172800000, 0, false⟩

/-- 51 stale rows (one more than a sweep batch), all older than the
verification threshold, all owned by `w`. -/
def staleDb : Db :=
  ⟨(List.range 51).map (fun i =>
      ⟨i, toString i, "w", "n", "s", "u", toString i, 0, none, 0, 0, (i : Int)⟩),
   [⟨"w", 51, 1, 51, 0, 0, 0, 1⟩], []⟩

/-- The result of one sweep pass over `staleDb`. -/
def staleSweepRes : Except AppError Unit × Bool × Db :=
  cleanup_burned_nfts envSweep false staleDb

/-- A store environment where the RPC client is present, both addresses
parse, and the balance fetch fails with a network error. -/
def envNetErr : StoreEnv := ⟨true, fun _ => true, fun _ _ => .err, 1000, 7, false⟩

/-- A store environment where the RPC client is present but pubkey parsing
fails (the only case in which `is_nft_owned_by_wallet` itself errors). -/
def envBadParse : StoreEnv := ⟨true, fun _ => false, fun _ _ => .err, 1000, 7, false⟩

/-- A processed-signature cache filled to exactly `maxCacheSize` entries,
with pairwise-distinct one-char keys and strictly increasing timestamps. -/
def bigCache : SigCache :=
  (List.range maxCacheSize).map
    (fun i => (String.mk [Char.ofNat (57344 + i)], i))

/-- A small cache at its (4-entry) bound, for the eviction witness. -/
def cacheW : SigCache := [("a", 0), ("b", 1), ("c", 2), ("d", 3)]

/-- A transaction whose only log line is `"swap İİ amount: 5"`: the line
mentions "swap", so the buyback fallback runs `extract_lamports_from_log`
on it; lowercasing the two `İ` characters lengthens the string by two
bytes, so the byte offset found in the lowercased copy (20) is past the end
of the original 19-byte line and `&log[value_start..]` panics. -/
def panicTx : EncodedConfirmedTx :=
  ⟨some ⟨some [strB "swap İİ amount: 5"]⟩, .legacyBinary⟩

/-- A log line carrying the heuristic mint markers and quoted name/symbol
fields. -/
def fbLogW : Bytes := strB "Instruction: Mint name: \"Test NFT\", symbol: \"TEST\""

/-- A transaction with those logs but a binary-encoded payload, from which
no account keys can be extracted. -/
def fbTxBinary : EncodedConfirmedTx := ⟨some ⟨some [fbLogW]⟩, .legacyBinary⟩

/-- The same logs on a JSON-encoded transaction with two account keys. -/
def fbTxJson : EncodedConfirmedTx :=
  ⟨some ⟨some [fbLogW]⟩, .json (.raw [strB "Minter111", strB "Mint222"])⟩

/-- A concrete raw mint event for the tagged-decode witness. -/
def testRaw : RawMintEvent :=
  ⟨List.replicate 31 0 ++ [1], List.replicate 32 7, strB "Test", strB "TST",
   strB "https://example.com", 1234567890⟩

/-- A transaction whose logs are the program's invoke line, a
`Program data:` line holding the discriminator-tagged Borsh payload of
`testRaw`, and the program's success line. -/
def testTx : EncodedConfirmedTx :=
  ⟨some ⟨some [invokeMark programIdB,
    pdataMarkSp ++ base64Encode (mintEventDisc ++ borshEncodeMint testRaw),
    successMark programIdB]⟩, .legacyBinary⟩

/-- The same Borsh payload with the first byte of the 8-byte tag changed
(62 becomes 63); the record after the tag is still well-formed. -/
def testPayloadBad : Bytes :=
  63 :: mintEventDisc.tail ++ borshEncodeMint testRaw

/-- The corrupted-tag transaction: identical log shape, wrong tag. -/
def testTxBad : EncodedConfirmedTx :=
  ⟨some ⟨some [invokeMark programIdB,
    pdataMarkSp ++ base64Encode testPayloadBad,
    successMark programIdB]⟩, .legacyBinary⟩

theorem b64DecChar_encChar : ∀ v < 64, b64DecChar (b64EncChar v) = some v := by
  decide

theorem b64EncChar_lower (v : Nat) : 43 ≤ b64EncChar v := by
  unfold b64EncChar
  split_ifs <;> omega

theorem b64EncChar_ne_pad (v : Nat) : b64EncChar v ≠ 61 := by
  unfold b64EncChar
  split_ifs <;> omega

theorem b64EncChar_not_ws (v : Nat) : isWsByte (b64EncChar v) = false := by
  have h := b64EncChar_lower v
  unfold isWsByte
  simp only [Bool.or_eq_false_iff, beq_eq_false_iff_ne]
  omega

theorem base64Encode_not_ws {bs : Bytes} {x : Nat} (hx : x ∈ base64Encode bs) :
    isWsByte x = false := by
  induction bs using base64Encode.induct with
  | case1 => simp [base64Encode] at hx
  | case2 a =>
      simp only [base64Encode, List.mem_cons, List.not_mem_nil, or_false] at hx
      rcases hx with h | h | h | h <;> subst h <;>
        first
        | exact b64EncChar_not_ws _
        | decide
  | case3 a b =>
      simp only [base64Encode, List.mem_cons, List.not_mem_nil, or_false] at hx
      rcases hx with h | h | h | h <;> subst h <;>
        first
        | exact b64EncChar_not_ws _
        | decide
  | case4 a b c rest ih =>
      simp only [base64Encode, List.mem_cons] at hx
      rcases hx with h | h | h | h | h <;>
        first
        | (subst h; exact b64EncChar_not_ws _)
        | exact ih h

theorem base64_roundtrip {bs : Bytes} (h : ∀ b ∈ bs, b < 256) :
    base64Decode (base64Encode bs) = some bs := by
  induction bs using base64Encode.induct with
  | case1 => rfl
  | case2 a =>
      have ha : a < 256 := h a (by simp)
      simp only [base64Encode, base64Decode,
        b64DecChar_encChar (a / 4) (by omega),
        b64DecChar_encChar (a % 4 * 16) (by omega)]
      simp only [Nat.mul_mod_left, List.isEmpty_nil, beq_self_eq_true,
        Bool.and_self, if_true, Nat.zero_mod]
      simp only [reduceIte, Option.some.injEq, List.cons.injEq, and_true]
      omega
  | case3 a b =>
      have ha : a < 256 := h a (by simp)
      have hb : b < 256 := h b (by simp)
      have hne : (b64EncChar (b % 16 * 4) == 61) = false :=
        beq_eq_false_iff_ne.mpr (b64EncChar_ne_pad _)
      simp only [base64Encode, base64Decode,
        b64DecChar_encChar (a / 4) (by omega),
        b64DecChar_encChar (a % 4 * 16 + b / 16) (by omega), hne,
        b64DecChar_encChar (b % 16 * 4) (by omega)]
      simp only [Nat.mul_mod_left, List.isEmpty_nil, beq_self_eq_true,
        if_true, Bool.false_eq_true, if_false]
      simp only [reduceIte, Option.some.injEq, List.cons.injEq, and_true]
      constructor <;> omega
  | case4 a b c rest ih =>
      have ha : a < 256 := h a (by simp)
      have hb : b < 256 := h b (by simp)
      have hc : c < 256 := h c (by simp)
      have hrest : ∀ x ∈ rest, x < 256 := fun x hx => h x (by simp [hx])
      have hne2 : (b64EncChar (b % 16 * 4 + c / 64) == 61) = false :=
        beq_eq_false_iff_ne.mpr (b64EncChar_ne_pad _)
      have hne3 : (b64EncChar (c % 64) == 61) = false :=
        beq_eq_false_iff_ne.mpr (b64EncChar_ne_pad _)
      simp only [base64Encode, base64Decode,
        b64DecChar_encChar (a / 4) (by omega),
        b64DecChar_encChar (a % 4 * 16 + b / 16) (by omega),
        b64DecChar_encChar (b % 16 * 4 + c / 64) (by omega),
        b64DecChar_encChar (c % 64) (by omega), hne2, hne3, ih hrest]
      simp only [Bool.false_eq_true, if_false, Option.some.injEq,
        List.cons.injEq, and_true]
      refine ⟨by omega, by omega, by omega⟩

theorem trimB_eq_self {s : Bytes} (h : ∀ x ∈ s, isWsByte x = false) :
    trimB s = s := by
  have h1 : s.dropWhile isWsByte = s := by
    cases s with
    | nil => rfl
    | cons a t => simp [List.dropWhile_cons, h a (by simp)]
  have h2 : s.reverse.dropWhile isWsByte = s.reverse := by
    cases hr : s.reverse with
    | nil => rfl
    | cons a t =>
        have ha : a ∈ s := by
          have : a ∈ s.reverse := by rw [hr]; simp
          simpa using this
        simp [List.dropWhile_cons, h a ha]
  unfold trimB
  rw [h1, h2, List.reverse_reverse]

/-- Is a UTF-8 continuation byte. -/
theorem recalc_nfts_eq (env : StoreEnv) (db : Db) (w : String) :
    (recalculate_user_level env db w).nfts = db.nfts := by
  unfold recalculate_user_level
  dsimp only
  split
  · rfl
  · split <;> rfl

theorem recalc_buybacks_eq (env : StoreEnv) (db : Db) (w : String) :
    (recalculate_user_level env db w).buyback_events = db.buyback_events := by
  unfold recalculate_user_level
  dsimp only
  split
  · rfl
  · split <;> rfl

theorem mintCount_zero_of_find_none {db : Db} {m : String}
    (h : db.nfts.find? (fun n => n.mint == m) = none) : mintCount db m = 0 := by
  unfold mintCount
  rw [List.length_eq_zero]
  rw [List.find?_eq_none] at h
  rw [List.filter_eq_nil]
  exact h

theorem save_nft_idem (env env2 : StoreEnv) (db : Db) (c : CreateNft)
    (row : Nft) (db' : Db)
    (hu : ∀ m, mintCount db m ≤ 1)
    (h1 : save_nft env db c = (.ok row, db'))
    (h2 : env2.poolFail = false) :
    save_nft env2 db' c = (.ok row, db') ∧ mintCount db' c.mint = 1 := by
  unfold save_nft at h1
  by_cases hpf : env.poolFail
  · simp [hpf] at h1
  · simp only [hpf, Bool.false_eq_true, if_false] at h1
    cases hf : db.nfts.find? (fun n => n.mint == c.mint) with
    | some r =>
        rw [hf] at h1
        simp only [Prod.mk.injEq, Except.ok.injEq] at h1
        obtain ⟨hrow, hdb⟩ := h1
        have hmem := List.mem_of_find?_eq_some hf
        have hpred := List.find?_some hf
        constructor
        · unfold save_nft
          rw [if_neg (by simp [h2]), ← hdb, hf, hrow]
        · have hle := hu c.mint
          have hge : 1 ≤ mintCount db c.mint := by
            unfold mintCount
            exact List.length_pos_of_mem
              (List.mem_filter.mpr ⟨hmem, hpred⟩)
          rw [← hdb]
          omega
    | none =>
        rw [hf] at h1
        dsimp only at h1
        cases hv : (if env.rpcPresent then
            match is_nft_owned_by_wallet env c.mint c.minter with
            | .ok true => Except.ok ()
            | .ok false => Except.error (AppError.validation "NFT not owned by minter")
            | .error _ => Except.ok ()
          else Except.ok ()) with
        | error e => rw [hv] at h1; simp at h1
        | ok u =>
            rw [hv] at h1
            simp only [Prod.mk.injEq, Except.ok.injEq] at h1
            obtain ⟨hrow, hdb⟩ := h1
            have hmint : row.mint = c.mint := by rw [← hrow]; rfl
            have hnfts : db'.nfts = db.nfts ++ [row] := by
              rw [← hdb, recalc_nfts_eq, ← hrow]
            have hfilter : db.nfts.filter (fun n => n.mint == c.mint) = [] := by
              rw [List.filter_eq_nil_iff]
              exact fun n hn => (List.find?_eq_none.mp hf) n hn
            constructor
            · unfold save_nft
              rw [if_neg (by simp [h2])]
              have : db'.nfts.find? (fun n => n.mint == c.mint) = some row := by
                rw [hnfts, List.find?_append, hf]
                simp [hmint]
              rw [this]
            · unfold mintCount
              rw [hnfts, List.filter_append, hfilter]
              simp [hmint]

theorem save_buyback_idem (env env2 : StoreEnv) (db : Db)
    (c : CreateBuybackEvent) (row : BuybackEvent) (db' : Db)
    (hu : ∀ s, buybackSigCount db s ≤ 1)
    (h1 : save_buyback_event env db c = (.ok row, db'))
    (h2 : env2.poolFail = false) :
    save_buyback_event env2 db' c = (.ok row, db') ∧
      buybackSigCount db' c.transaction_signature = 1 := by
  unfold save_buyback_event at h1
  by_cases hpf : env.poolFail
  · simp [hpf] at h1
  · simp only [hpf, Bool.false_eq_true, if_false] at h1
    cases hf : db.buyback_events.find?
        (fun b => b.transaction_signature == c.transaction_signature) with
    | some r =>
        rw [hf] at h1
        simp only [Prod.mk.injEq, Except.ok.injEq] at h1
        obtain ⟨hrow, hdb⟩ := h1
        have hmem := List.mem_of_find?_eq_some hf
        have hpred := List.find?_some hf
        constructor
        · unfold save_buyback_event
          rw [if_neg (by simp [h2]), ← hdb, hf, hrow]
        · have hle := hu c.transaction_signature
          have hge : 1 ≤ buybackSigCount db c.transaction_signature := by
            unfold buybackSigCount
            exact List.length_pos_of_mem
              (List.mem_filter.mpr ⟨hmem, hpred⟩)
          rw [← hdb]
          omega
    | none =>
        rw [hf] at h1
        simp only [Prod.mk.injEq, Except.ok.injEq] at h1
        obtain ⟨hrow, hdb⟩ := h1
        have hsig : row.transaction_signature = c.transaction_signature := by
          rw [← hrow]
        have hevs : db'.buyback_events = db.buyback_events ++ [row] := by
          rw [← hdb, ← hrow]
        have hfilter : db.buyback_events.filter
            (fun b => b.transaction_signature == c.transaction_signature) = [] := by
          rw [List.filter_eq_nil_iff]
          exact fun b hb => (List.find?_eq_none.mp hf) b hb
        constructor
        · unfold save_buyback_event
          rw [if_neg (by simp [h2])]
          have : db'.buyback_events.find?
              (fun b => b.transaction_signature == c.transaction_signature) =
                some row := by
            rw [hevs, List.find?_append, hf]
            simp [hsig]
          rw [this]
        · unfold buybackSigCount
          rw [hevs, List.filter_append, hfilter]
          simp [hsig]

/-- C1: for every candidate, calling `save_nft` twice with the same mint
address results in exactly one `nfts` row, the second call returning the
already-stored row with the store unchanged; likewise `save_buyback_event`
is idempotent on the transaction signature.  The store is assumed to satisfy
its uniqueness constraint on the natural key beforehand, and the second
call's pool connection succeeds. -/
theorem c1_save_idempotence :
    (∀ (env env2 : StoreEnv) (db : Db) (c : CreateNft) (row : Nft) (db' : Db),
      (∀ m, mintCount db m ≤ 1) →
      save_nft env db c = (.ok row, db') →
      env2.poolFail = false →
      save_nft env2 db' c = (.ok row, db') ∧ mintCount db' c.mint = 1) ∧
    (∀ (env env2 : StoreEnv) (db : Db) (c : CreateBuybackEvent)
        (row : BuybackEvent) (db' : Db),
      (∀ s, buybackSigCount db s ≤ 1) →
      save_buyback_event env db c = (.ok row, db') →
      env2.poolFail = false →
      save_buyback_event env2 db' c = (.ok row, db') ∧
        buybackSigCount db' c.transaction_signature = 1) :=
  ⟨fun env env2 db c row db' hu h1 h2 =>
      save_nft_idem env env2 db c row db' hu h1 h2,
   fun env env2 db c row db' hu h1 h2 =>
      save_buyback_idem env env2 db c row db' hu h1 h2⟩

/-- A concrete store environment: no RPC client, clock at 1000, fresh id 7,
healthy pool. -/
theorem c1_save_idempotence_witness :
    (save_nft envW dbW cNftW = (.ok rowW, dbW) ∧ mintCount dbW cNftW.mint = 1) ∧
    (save_buyback_event envW dbBbW cBbW = (.ok bbRowW, dbBbW) ∧
      buybackSigCount dbBbW cBbW.transaction_signature = 1) :=
  ⟨c1_save_idempotence.1 envW envW dbEmpty cNftW rowW dbW
      (fun m => by simp [mintCount, dbEmpty]) rfl rfl,
   c1_save_idempotence.2 envW envW dbEmpty cBbW bbRowW dbBbW
      (fun s => by simp [buybackSigCount, dbEmpty]) rfl rfl⟩

theorem minterCount_recalc (env : StoreEnv) (db : Db) (w w' : String) :
    minterCount (recalculate_user_level env db w) w' = minterCount db w' := by
  unfold minterCount
  rw [recalc_nfts_eq]

theorem recalc_exists_self (env : StoreEnv) (db : Db) (w : String) :
    levelRowExists (recalculate_user_level env db w) w = true ↔
      0 < minterCount db w := by
  unfold recalculate_user_level levelRowExists minterCount
  dsimp only
  split_ifs with h1 h2
  · have h0 : (db.nfts.filter (fun n => n.minter == w)).length = 0 := by
      simpa using h1
    rw [h0]
    simp only [List.any_eq_true, List.mem_filter, Nat.lt_irrefl, iff_false]
    rintro ⟨l, ⟨_, hne⟩, heq⟩
    rw [beq_iff_eq] at heq
    rw [bne_iff_ne] at hne
    exact hne heq
  · have hp : (db.nfts.filter (fun n => n.minter == w)).length ≠ 0 := by
      simpa using h1
    rw [List.any_map]
    have hcomp :
        ((fun l : UserLevel => l.wallet_address == w) ∘
          (fun l : UserLevel =>
            if l.wallet_address == w then
              { l with
                total_mints := (calculate_level
                  ((db.nfts.filter (fun n => n.minter == w)).length : Int)).total_mints,
                level := (calculate_level
                  ((db.nfts.filter (fun n => n.minter == w)).length : Int)).level,
                experience := (calculate_level
                  ((db.nfts.filter (fun n => n.minter == w)).length : Int)).experience,
                next_level_mints := (calculate_level
                  ((db.nfts.filter (fun n => n.minter == w)).length : Int)).next_level_mints,
                updated_at := env.now, version := l.version + 1 }
            else l)) = (fun l : UserLevel => l.wallet_address == w) := by
      funext l
      by_cases hl : l.wallet_address = w <;> simp [hl]
    rw [hcomp]
    simp only [h2, true_iff]
    omega
  · have hp : (db.nfts.filter (fun n => n.minter == w)).length ≠ 0 := by
      simpa using h1
    simp only [List.any_append, List.any_cons, List.any_nil, Bool.or_false,
      beq_self_eq_true, Bool.or_true, true_iff]
    omega

theorem recalc_exists_other (env : StoreEnv) (db : Db) {w w' : String}
    (hne : w' ≠ w) :
    (levelRowExists (recalculate_user_level env db w) w' = true ↔
      levelRowExists db w' = true) := by
  unfold recalculate_user_level levelRowExists
  dsimp only
  split_ifs with h1 h2
  · simp only [List.any_eq_true, List.mem_filter]
    constructor
    · rintro ⟨l, ⟨hl, _⟩, he⟩
      exact ⟨l, hl, he⟩
    · rintro ⟨l, hl, he⟩
      refine ⟨l, ⟨hl, ?_⟩, he⟩
      rw [beq_iff_eq] at he
      rw [bne_iff_ne]
      rw [he]
      exact hne
  · rw [List.any_map]
    have hcomp :
        ((fun l : UserLevel => l.wallet_address == w') ∘
          (fun l : UserLevel =>
            if l.wallet_address == w then
              { l with
                total_mints := (calculate_level
                  ((db.nfts.filter (fun n => n.minter == w)).length : Int)).total_mints,
                level := (calculate_level
                  ((db.nfts.filter (fun n => n.minter == w)).length : Int)).level,
                experience := (calculate_level
                  ((db.nfts.filter (fun n => n.minter == w)).length : Int)).experience,
                next_level_mints := (calculate_level
                  ((db.nfts.filter (fun n => n.minter == w)).length : Int)).next_level_mints,
                updated_at := env.now, version := l.version + 1 }
            else l)) = (fun l : UserLevel => l.wallet_address == w') := by
      funext l
      by_cases hl : l.wallet_address = w <;> simp [hl]
    rw [hcomp]
  · have : (w == w') = false := by
      rw [beq_eq_false_iff_ne]
      exact fun he => hne he.symm
    simp [List.any_append, this]

theorem foldl_recalc_nfts (env : StoreEnv) (ws : List String) (db : Db) :
    (ws.foldl (fun d w => recalculate_user_level env d w) db).nfts = db.nfts := by
  induction ws generalizing db with
  | nil => rfl
  | cons v ws ih =>
      rw [List.foldl_cons, ih, recalc_nfts_eq]

theorem minterCount_foldl_recalc (env : StoreEnv) (ws : List String) (db : Db)
    (w : String) :
    minterCount (ws.foldl (fun d w => recalculate_user_level env d w) db) w =
      minterCount db w := by
  unfold minterCount
  rw [foldl_recalc_nfts]

theorem foldl_recalc_inv (env : StoreEnv) (ws : List String) (db : Db)
    (h : ∀ w, w ∉ ws → (levelRowExists db w = true ↔ 0 < minterCount db w)) :
    LevelInv (ws.foldl (fun d w => recalculate_user_level env d w) db) := by
  induction ws generalizing db with
  | nil =>
      intro w
      exact h w (List.not_mem_nil w)
  | cons v ws ih =>
      rw [List.foldl_cons]
      apply ih
      intro w hw
      rw [minterCount_recalc]
      by_cases hvw : w = v
      · subst hvw
        exact recalc_exists_self env db w
      · exact Iff.trans (recalc_exists_other env db hvw)
          (h w (by simp [hvw, hw]))

theorem levelInv_insert_recalc (env : StoreEnv) (db : Db) (row : Nft)
    (h : LevelInv db) :
    LevelInv (recalculate_user_level env { db with nfts := db.nfts ++ [row] }
      row.minter) := by
  intro w
  rw [minterCount_recalc]
  by_cases hw : w = row.minter
  · subst hw
    exact recalc_exists_self env _ row.minter
  · refine Iff.trans (recalc_exists_other env _ hw) ?_
    have h2 : minterCount { db with nfts := db.nfts ++ [row] } w =
        minterCount db w := by
      unfold minterCount
      dsimp only
      rw [List.filter_append]
      have hrm : (row.minter == w) = false := by
        rw [beq_eq_false_iff_ne]
        exact fun he => hw he.symm
      simp [hrm]
    have h1 : levelRowExists { db with nfts := db.nfts ++ [row] } w =
        levelRowExists db w := rfl
    rw [h1, h2]
    exact h w

theorem save_nft_levelInv (env : StoreEnv) (db : Db) (c : CreateNft)
    (h : LevelInv db) : LevelInv (save_nft env db c).2 := by
  unfold save_nft
  by_cases hpf : env.poolFail
  · simpa [hpf] using h
  · simp only [hpf, Bool.false_eq_true, if_false]
    cases hf : db.nfts.find? (fun n => n.mint == c.mint) with
    | some r => exact h
    | none =>
        dsimp only
        cases hv : (if env.rpcPresent then
            match is_nft_owned_by_wallet env c.mint c.minter with
            | .ok true => Except.ok ()
            | .ok false => Except.error (AppError.validation "NFT not owned by minter")
            | .error _ => Except.ok ()
          else Except.ok ()) with
        | error e => exact h
        | ok u => exact levelInv_insert_recalc env db _ h

theorem levelInv_delete_recalc (env : StoreEnv) (db : Db) (T : List Nat)
    (h : LevelInv db) :
    LevelInv ((((db.nfts.filter (fun n => T.contains n.id)).map
        (·.minter)).dedup).foldl
      (fun d w => recalculate_user_level env d w)
      { db with nfts := db.nfts.filter (fun n => !(T.contains n.id)) }) := by
  apply foldl_recalc_inv
  intro w hw
  have hnod : ∀ n ∈ db.nfts, n.minter = w → T.contains n.id = false := by
    intro n hn hm
    cases hT : T.contains n.id
    · rfl
    · exfalso
      apply hw
      rw [List.mem_dedup]
      exact List.mem_map.mpr ⟨n, List.mem_filter.mpr ⟨hn, hT⟩, hm⟩
  have h2 : minterCount
      { db with nfts := db.nfts.filter (fun n => !(T.contains n.id)) } w =
      minterCount db w := by
    unfold minterCount
    dsimp only
    rw [List.filter_filter]
    apply congrArg List.length
    apply List.filter_congr
    intro a ha
    cases hB : (a.minter == w)
    · simp [hB]
    · have hm : a.minter = w := by
        rw [← beq_iff_eq]
        exact hB
      have hc : a.id ∉ T := by simpa using hnod a ha hm
      simp [hB, hc]
  have h1 : levelRowExists
      { db with nfts := db.nfts.filter (fun n => !(T.contains n.id)) } w =
      levelRowExists db w := rfl
  rw [h1, h2]
  exact h w

theorem levelInv_batch_aux (env : StoreEnv) (db : Db) (T : List Nat)
    (h : LevelInv db) :
    LevelInv (if T.isEmpty then db
      else (((db.nfts.filter (fun n => T.contains n.id)).map
          (·.minter)).dedup).foldl
        (fun d w => recalculate_user_level env d w)
        { db with nfts := db.nfts.filter (fun n => !(T.contains n.id)) }) := by
  split
  · exact h
  · exact levelInv_delete_recalc env db T h

theorem cleanupBatchStep_levelInv (env : StoreEnv) (db : Db) (rows : List Nft)
    (h : LevelInv db) : LevelInv (cleanupBatchStep env db rows) := by
  unfold cleanupBatchStep
  dsimp only
  exact levelInv_batch_aux env db _ h

theorem cleanupLoop_levelInv (env : StoreEnv) (threshold : Int) (fuel : Nat)
    (db : Db) (offset : Nat) (h : LevelInv db) :
    LevelInv (cleanupLoop env threshold fuel db offset) := by
  induction fuel generalizing db offset with
  | zero => exact h
  | succ n ih =>
      rw [cleanupLoop]
      dsimp only
      split
      · exact h
      · split
        · exact cleanupBatchStep_levelInv env db _ h
        · exact ih _ _ (cleanupBatchStep_levelInv env db _ h)

theorem cleanup_levelInv (env : StoreEnv) (running : Bool) (db : Db)
    (h : LevelInv db) : LevelInv (cleanup_burned_nfts env running db).2.2 := by
  unfold cleanup_burned_nfts
  split_ifs with h1 h2
  · exact h
  · exact h
  · exact cleanupLoop_levelInv env _ _ db 0 h

theorem recalc_content (env : StoreEnv) (db : Db) (w : String) :
    (minterCount db w = 0 →
      levelRowExists (recalculate_user_level env db w) w = false) ∧
    (∀ l ∈ (recalculate_user_level env db w).user_levels,
      l.wallet_address = w → l.total_mints = (minterCount db w : Int)) := by
  constructor
  · intro h0
    have hs := recalc_exists_self env db w
    rw [h0] at hs
    simp only [Nat.lt_irrefl, iff_false] at hs
    exact Bool.not_eq_true _ ▸ eq_false_of_ne_true hs
  · intro l hl hlw
    unfold recalculate_user_level at hl
    dsimp only at hl
    split_ifs at hl with h1 h2
    · rcases List.mem_filter.mp hl with ⟨_, hbn⟩
      rw [bne_iff_ne] at hbn
      exact absurd hlw hbn
    · rcases List.mem_map.mp hl with ⟨l0, hl0, hfe⟩
      by_cases hc : l0.wallet_address = w
      · rw [if_pos (by rw [beq_iff_eq]; exact hc)] at hfe
        rw [← hfe]
        simp [calculate_level, minterCount]
      · rw [if_neg (by rw [beq_iff_eq]; exact hc)] at hfe
        rw [← hfe] at hlw
        exact absurd hlw hc
    · rcases List.mem_append.mp hl with hin | hnew
      · exfalso
        apply h2
        rw [List.any_eq_true]
        exact ⟨l, hin, by rw [beq_iff_eq]; exact hlw⟩
      · rw [List.mem_singleton] at hnew
        rw [hnew]
        simp [calculate_level, minterCount]

/-- C2: the OwnerLevel existence invariant — a `user_levels` row exists for
an owner exactly when the owner has at least one `nfts` row — is preserved
by `save_nft` (every outcome) and by `cleanup_burned_nfts`; moreover the
recompute step writes the current count into the level row and deletes the
row when the count is zero. -/
theorem c2_owner_level_invariant :
    (∀ (env : StoreEnv) (db : Db) (c : CreateNft),
      LevelInv db → LevelInv (save_nft env db c).2) ∧
    (∀ (env : StoreEnv) (running : Bool) (db : Db),
      LevelInv db → LevelInv (cleanup_burned_nfts env running db).2.2) ∧
    (∀ (env : StoreEnv) (db : Db) (w : String),
      (minterCount db w = 0 →
        levelRowExists (recalculate_user_level env db w) w = false) ∧
      (∀ l ∈ (recalculate_user_level env db w).user_levels,
        l.wallet_address = w → l.total_mints = (minterCount db w : Int))) :=
  ⟨save_nft_levelInv, cleanup_levelInv, recalc_content⟩

theorem c2_owner_level_invariant_witness :
    LevelInv (save_nft envW dbEmpty cNftW).2 ∧
    LevelInv (cleanup_burned_nfts envW false dbW).2.2 ∧
    levelRowExists (recalculate_user_level envW dbEmpty "w1") "w1" = false :=
  ⟨c2_owner_level_invariant.1 envW dbEmpty cNftW
      (fun w => by simp [levelRowExists, minterCount, dbEmpty]),
   c2_owner_level_invariant.2.1 envW false dbW
      (fun w => by
        by_cases h : ("w1" : String) = w <;>
          simp [levelRowExists, minterCount, dbW, rowW, h]),
   (c2_owner_level_invariant.2.2 envW dbEmpty "w1").1 rfl⟩

/-- C9: the sweep is NOT complete across batches — with 51 stale rows all
failing the ownership check, one `cleanup_burned_nfts` call deletes the
first batch of 50 and then, because the offset advanced over the shrunken
table, terminates leaving one row that is older than the threshold and
whose ownership check returns `Ok(false)`; the claim requires it deleted. -/
theorem c9_sweep_offset_skips_row :
    staleSweepRes.1 = .ok () ∧
    staleSweepRes.2.2.nfts.length = 1 ∧
    (∀ n ∈ staleSweepRes.2.2.nfts,
      n.updated_at < envSweep.now - verificationAgeMs ∧
      (match is_nft_owned_by_wallet envSweep n.mint n.minter with
        | .ok false => true
        | _ => false) = true) := by
  refine ⟨rfl, by decide, by decide⟩

/-- C10: an error return inside the sweep leaves the `cleanup_running` flag
set — with the pool acquisition failing, `cleanup_burned_nfts` acquires the
flag, returns the database error, and the flag is still `true` on return, so
every later tick will skip.  The claim requires the flag to be `false` again
on every error-return path. -/
theorem c10_sweep_flag_stuck :
    (cleanup_burned_nfts envPoolFail false dbEmpty).1 =
      .error (.database "pool") ∧
    (cleanup_burned_nfts envPoolFail false dbEmpty).2.1 = true :=
  ⟨rfl, rfl⟩

/-- C4 counterexample: with the mint unstored, both addresses parsable, and
the balance fetch failing (e.g. a network error), `save_nft` REJECTS with a
validation error and inserts no row: `is_nft_owned_by_wallet` folds the RPC
error into `Ok(false)` (nft_storage.rs line 236).  The claim says such a
verification failure lets the insert proceed. -/
theorem c4_network_error_rejects :
    save_nft envNetErr dbEmpty cNftW =
      (.error (.validation "NFT not owned by minter"), dbEmpty) := rfl

theorem save_nft_insert_on_verify_err (env : StoreEnv) (db : Db)
    (c : CreateNft) (e : AppError)
    (hpf : env.poolFail = false)
    (hf : db.nfts.find? (fun n => n.mint == c.mint) = none)
    (hrpc : env.rpcPresent = true)
    (he : is_nft_owned_by_wallet env c.mint c.minter = .error e) :
    save_nft env db c = (.ok (newNftRow env c),
      recalculate_user_level env
        { db with nfts := db.nfts ++ [newNftRow env c] } c.minter) := by
  simp only [save_nft, hpf, Bool.false_eq_true, if_false, hf, hrpc, if_true, he]

/-- C4 (amended): at write time with the mint unstored and the RPC client
available — a confirmed zero holding AND a failed balance fetch both reject
with a validation error and no insert (the helper reports `Ok(false)` for
both); the insert proceeds despite a verification problem only when the
verification helper itself returns an error, which happens exactly when an
address fails pubkey parsing. -/
theorem c4_ownership_gate :
    ∀ (env : StoreEnv) (db : Db) (c : CreateNft),
      env.poolFail = false →
      db.nfts.find? (fun n => n.mint == c.mint) = none →
      env.rpcPresent = true →
      ((env.parseOk c.mint = true → env.parseOk c.minter = true →
        (env.balance c.mint c.minter = .err ∨
          env.balance c.mint c.minter = .ok 0) →
        save_nft env db c =
          (.error (.validation "NFT not owned by minter"), db)) ∧
       ((env.parseOk c.mint = false ∨ env.parseOk c.minter = false) →
        save_nft env db c = (.ok (newNftRow env c),
          recalculate_user_level env
            { db with nfts := db.nfts ++ [newNftRow env c] } c.minter))) := by
  intro env db c hpf hf hrpc
  constructor
  · intro hm ho hb
    have hown : is_nft_owned_by_wallet env c.mint c.minter = .ok false := by
      unfold is_nft_owned_by_wallet
      rcases hb with hb | hb <;> simp [hrpc, hm, ho, hb]
    simp only [save_nft, hpf, Bool.false_eq_true, if_false, hf, hrpc, if_true,
      hown]
  · intro hp
    rcases hp with hp | hp
    · apply save_nft_insert_on_verify_err env db c
        (.validation "Invalid mint address") hpf hf hrpc
      unfold is_nft_owned_by_wallet
      simp [hrpc, hp]
    · by_cases hm2 : env.parseOk c.mint = true
      · apply save_nft_insert_on_verify_err env db c
          (.validation "Invalid owner address") hpf hf hrpc
        unfold is_nft_owned_by_wallet
        simp [hrpc, hm2, hp]
      · have hm2f : env.parseOk c.mint = false := by
          simpa using hm2
        apply save_nft_insert_on_verify_err env db c
          (.validation "Invalid mint address") hpf hf hrpc
        unfold is_nft_owned_by_wallet
        simp [hrpc, hm2f]

theorem c4_ownership_gate_witness :
    save_nft envNetErr dbEmpty cNftW =
      (.error (.validation "NFT not owned by minter"), dbEmpty) ∧
    save_nft envBadParse dbEmpty cNftW = (.ok (newNftRow envBadParse cNftW),
      recalculate_user_level envBadParse
        { dbEmpty with nfts := dbEmpty.nfts ++ [newNftRow envBadParse cNftW] }
        cNftW.minter) :=
  ⟨(c4_ownership_gate envNetErr dbEmpty cNftW rfl rfl rfl).1 rfl rfl
      (Or.inl rfl),
   (c4_ownership_gate envBadParse dbEmpty cNftW rfl rfl rfl).2 (Or.inl rfl)⟩

/-- C5 counterexample: a store validation error (ownership mismatch) is
retried like any other error — the loop makes all 5 attempts, counts 4
retries and sleeps the 4 linearly increasing delays, contradicting
"terminal for that signature on the first attempt". -/
theorem c5_validation_error_is_retried :
    processWithRetries (fun _ => .error (.validation "NFT not owned by minter")) =
      (5, 4, [2000, 4000, 6000, 8000], false) := rfl

theorem retry_delays_shift (attempt k : Nat) :
    retryDelayMs * (attempt + 1) ::
      (List.range k).map (fun i => retryDelayMs * (attempt + 1 + i + 1)) =
    (List.range (k + 1)).map (fun i => retryDelayMs * (attempt + i + 1)) := by
  rw [List.range_succ_eq_map, List.map_cons, List.map_map]
  refine congrArg₂ List.cons (by simp) ?_
  apply List.map_congr_left
  intro i _
  simp only [Function.comp_apply, Nat.succ_eq_add_one]
  congr 1
  omega

theorem retryGo_spec (outcome : Nat → Except AppError Unit) :
    ∀ (remaining attempt : Nat), 0 < remaining →
    (retryGo outcome remaining attempt).1 ≤ remaining ∧
    1 ≤ (retryGo outcome remaining attempt).1 ∧
    (retryGo outcome remaining attempt).2.1 =
      (retryGo outcome remaining attempt).1 - 1 ∧
    (retryGo outcome remaining attempt).2.2.1 =
      (List.range ((retryGo outcome remaining attempt).1 - 1)).map
        (fun i => retryDelayMs * (attempt + i + 1)) ∧
    ((retryGo outcome remaining attempt).2.2.2 = true ↔
      ∃ i < (retryGo outcome remaining attempt).1,
        outcome (attempt + i) = .ok ()) := by
  intro remaining
  induction remaining with
  | zero => intro attempt h; omega
  | succ rem ih =>
      intro attempt _
      cases ho : outcome attempt with
      | ok u =>
          cases u
          have hval : retryGo outcome (rem + 1) attempt = (1, 0, [], true) := by
            simp [retryGo, ho]
          rw [hval]
          exact ⟨by omega, by omega, rfl, by simp,
            ⟨fun _ => ⟨0, by omega, by simpa using ho⟩, fun _ => rfl⟩⟩
      | error e =>
          by_cases hrem : rem > 0
          · have hrec := ih (attempt + 1) hrem
            rcases hgo : retryGo outcome rem (attempt + 1) with ⟨a, r, ds, s⟩
            rw [hgo] at hrec
            obtain ⟨ha, h1, hr, hd, hs⟩ := hrec
            dsimp only at ha h1 hr hd hs
            have hval : retryGo outcome (rem + 1) attempt =
                (a + 1, r + 1, retryDelayMs * (attempt + 1) :: ds, s) := by
              simp only [retryGo, ho, if_pos hrem, hgo]
            rw [hval]
            refine ⟨?_, ?_, ?_, ?_, ?_⟩
            · exact Nat.succ_le_succ ha
            · exact Nat.succ_le_succ (Nat.zero_le a)
            · dsimp only
              rw [hr, Nat.add_sub_cancel]
              exact Nat.sub_add_cancel h1
            · dsimp only
              have hsub : a + 1 - 1 = (a - 1) + 1 := by
                rw [Nat.add_sub_cancel]
                exact (Nat.sub_add_cancel h1).symm
              rw [hd, hsub]
              exact retry_delays_shift attempt (a - 1)
            · dsimp only
              rw [hs]
              constructor
              · rintro ⟨i, hi, hout⟩
                refine ⟨i + 1, Nat.succ_lt_succ hi, ?_⟩
                rw [Nat.add_comm i 1, ← Nat.add_assoc]
                exact hout
              · rintro ⟨i, hi, hout⟩
                cases i with
                | zero =>
                    rw [Nat.add_zero, ho] at hout
                    exact absurd hout (by simp)
                | succ j =>
                    refine ⟨j, Nat.lt_of_succ_lt_succ hi, ?_⟩
                    rw [Nat.add_assoc, Nat.add_comm 1 j]
                    exact hout
          · have hz : rem = 0 := by omega
            subst hz
            have hval : retryGo outcome 1 attempt = (1, 0, [], false) := by
              simp [retryGo, ho]
            rw [hval]
            refine ⟨by omega, by omega, rfl, by simp, ?_⟩
            simp only [Bool.false_eq_true, false_iff]
            rintro ⟨i, hi, hout⟩
            have : i = 0 := by omega
            subst this
            rw [Nat.add_zero, ho] at hout
            exact absurd hout (by simp)

/-- C5 (amended): the per-signature retry loop makes at most `max_retries`
(5) attempts, sleeping `retry_delay_ms * (attempt + 1)` (a linearly
increasing delay) before each retry, abandoning the signature for the tick
when the limit is exhausted; every error kind — a store validation error
included — is retried identically, so a failure on the first attempt always
leads to a second attempt. -/
theorem c5_retry_policy :
    ∀ outcome : Nat → Except AppError Unit,
      (processWithRetries outcome).1 ≤ maxRetries ∧
      1 ≤ (processWithRetries outcome).1 ∧
      (processWithRetries outcome).2.1 = (processWithRetries outcome).1 - 1 ∧
      (processWithRetries outcome).2.2.1 =
        (List.range ((processWithRetries outcome).1 - 1)).map
          (fun i => retryDelayMs * (i + 1)) ∧
      ((processWithRetries outcome).2.2.2 = true ↔
        ∃ i < (processWithRetries outcome).1, outcome i = .ok ()) ∧
      (∀ e, outcome 0 = .error e → 2 ≤ (processWithRetries outcome).1) := by
  intro outcome
  obtain ⟨ha, h1, hr, hd, hs⟩ := retryGo_spec outcome maxRetries 0 (by decide)
  refine ⟨ha, h1, hr, ?_, ?_, ?_⟩
  · show (retryGo outcome maxRetries 0).2.2.1 =
      (List.range ((retryGo outcome maxRetries 0).1 - 1)).map
        (fun i => retryDelayMs * (i + 1))
    rw [hd]
    apply List.map_congr_left
    intro i _
    ring_nf
  · show (retryGo outcome maxRetries 0).2.2.2 = true ↔
      ∃ i < (retryGo outcome maxRetries 0).1, outcome i = .ok ()
    rw [hs]
    simp
  · intro e he
    show 2 ≤ (retryGo outcome maxRetries 0).1
    obtain ⟨ha4, h14, _, _, _⟩ := retryGo_spec outcome 4 1 (by decide)
    have hval : (retryGo outcome maxRetries 0).1 =
        (retryGo outcome 4 1).1 + 1 := by
      show (retryGo outcome 5 0).1 = _
      simp only [retryGo, he]
      rfl
    omega

theorem c5_retry_policy_witness :
    2 ≤ (processWithRetries
      (fun _ => .error (.validation "NFT not owned by minter"))).1 :=
  (c5_retry_policy (fun _ => .error (.validation "NFT not owned by minter"))).2.2.2.2.2
    (.validation "NFT not owned by minter") rfl

theorem char_toNat_ofNat_valid (n : Nat) (h : n.isValidChar) :
    (Char.ofNat n).toNat = n := by
  unfold Char.ofNat
  rw [dif_pos h]
  rfl

theorem bigCache_length : bigCache.length = maxCacheSize := by
  simp [bigCache]

theorem bigCache_fresh : bigCache.any (fun p => p.1 == "x") = false := by
  rw [List.any_eq_false]
  intro p hp
  unfold bigCache at hp
  rw [List.mem_map] at hp
  obtain ⟨i, hi, hpe⟩ := hp
  rw [List.mem_range] at hi
  rw [← hpe]
  dsimp only
  intro he
  rw [beq_iff_eq] at he
  have hv : (57344 + i).isValidChar := Or.inr ⟨by omega, by
    unfold maxCacheSize at hi
    omega⟩
  have htn : (Char.ofNat (57344 + i)).toNat = 57344 + i :=
    char_toNat_ofNat_valid _ hv
  have hdata : [Char.ofNat (57344 + i)] = ['x'] := congrArg String.data he
  have hch : Char.ofNat (57344 + i) = 'x' := by
    injection hdata
  have h120 : 57344 + i = 120 := by
    rw [← htn, hch]
    rfl
  omega

theorem hmInsert_fresh (c : SigCache) (k : String) (v : Nat)
    (h : c.any (fun p => p.1 == k) = false) :
    hmInsert c k v = c ++ [(k, v)] := by
  unfold hmInsert
  rw [h]
  simp

theorem pollProcess_commit_fresh (outcome : Nat → Except AppError Unit)
    (processed : SigCache) (processing : List String) (m : Metrics)
    (sig : String) (now : Nat)
    (hf : processed.any (fun p => p.1 == sig) = false)
    (hp : processing.contains sig = false)
    (hs : (processWithRetries outcome).2.2.2 = true) :
    (pollProcessSignature outcome processed processing m sig now).1 =
      processed ++ [(sig, now)] := by
  unfold pollProcessSignature
  rw [hf, hp]
  simp only [Bool.false_eq_true, if_false]
  rcases hpr : processWithRetries outcome with ⟨att, rest⟩
  rcases rest with ⟨retries, rest2⟩
  rcases rest2 with ⟨ds, succ⟩
  rw [hpr] at hs
  dsimp only at hs
  rw [hs]
  dsimp only
  exact hmInsert_fresh processed sig now hf

/-- C3 counterexample: the poll loop commits a newly processed signature
with a bare `HashMap::insert` (solana_indexer.rs line 373) and no eviction,
so with the cache already holding `max_cache_size` (100,000) entries the
insert leaves 100,001 — the size bound does not hold after every inserting
operation. -/
theorem c3_poll_insert_exceeds_bound :
    bigCache.length = maxCacheSize ∧
    (pollProcessSignature (fun _ => .ok ()) bigCache [] ⟨0, 0, 0⟩ "x"
      maxCacheSize).1.length = maxCacheSize + 1 ∧
    maxCacheSize < maxCacheSize + 1 := by
  refine ⟨bigCache_length, ?_, by omega⟩
  rw [pollProcess_commit_fresh (fun _ => .ok ()) bigCache [] ⟨0, 0, 0⟩ "x"
    maxCacheSize bigCache_fresh rfl rfl]
  rw [List.length_append, bigCache_length]
  rfl

theorem sortByTime_sorted (l : SigCache)
    (h : List.Pairwise (fun p q : String × Nat => p.2 < q.2) l) :
    sortByTime l = l := by
  induction l with
  | nil => rfl
  | cons a rest ih =>
      rw [List.pairwise_cons] at h
      obtain ⟨ha, hrest⟩ := h
      show insertByTime a (sortByTime rest) = a :: rest
      rw [ih hrest]
      cases rest with
      | nil => rfl
      | cons b bs =>
          show (if b.2 ≤ a.2 then b :: insertByTime a bs else a :: b :: bs) = _
          rw [if_neg]
          have := ha b (by simp)
          omega

theorem filter_not_mem_take (l : SigCache) (k : Nat)
    (hnod : (l.map Prod.fst).Nodup) :
    l.filter (fun p => !(((l.take k).map Prod.fst).contains p.1)) =
      l.drop k := by
  have hsplit : l.filter
      (fun p => !(((l.take k).map Prod.fst).contains p.1)) =
      (l.take k ++ l.drop k).filter
        (fun p => !(((l.take k).map Prod.fst).contains p.1)) := by
    rw [List.take_append_drop]
  rw [hsplit, List.filter_append]
  have hnod2 : ((l.take k).map Prod.fst ++ (l.drop k).map Prod.fst).Nodup := by
    rw [← List.map_append, List.take_append_drop]
    exact hnod
  have hdisj := (List.nodup_append.mp hnod2).2.2
  have h1 : (l.take k).filter
      (fun p => !(((l.take k).map Prod.fst).contains p.1)) = [] := by
    rw [List.filter_eq_nil_iff]
    intro p hp
    have hm : p.1 ∈ (l.take k).map Prod.fst := List.mem_map_of_mem _ hp
    have hc : ((l.take k).map Prod.fst).contains p.1 = true :=
      List.elem_iff.mpr hm
    rw [hc]
    decide
  have h2 : (l.drop k).filter
      (fun p => !(((l.take k).map Prod.fst).contains p.1)) = l.drop k := by
    rw [List.filter_eq_self]
    intro p hp
    have hmem : p.1 ∈ (l.drop k).map Prod.fst := List.mem_map_of_mem _ hp
    have hnm : p.1 ∉ (l.take k).map Prod.fst := fun hc => hdisj hc hmem
    have hc : ((l.take k).map Prod.fst).contains p.1 = false := by
      cases hcc : ((l.take k).map Prod.fst).contains p.1
      · rfl
      · exact absurd (List.elem_iff.mp hcc) hnm
    rw [hc]
    rfl
  rw [h1, h2, List.nil_append]

/-- C3 (amended): an insertion that goes through
`add_processed_signature` keeps the cache within the configured bound:
inserting a fresh signature into a cache at the bound evicts the oldest
entries by timestamp down to three quarters of the bound, retaining exactly
the most recent ones (the suffix in timestamp order); the poll loop's own
insert, however, bypasses this helper (see the counterexample).  Hypotheses:
the cache is in insertion order with strictly increasing timestamps and
distinct keys, the signature is new, and the new timestamp is the latest. -/
theorem c3_cache_bound :
    ∀ (maxCache : Nat) (c : SigCache) (sig : String) (now : Nat),
      List.Pairwise (fun p q : String × Nat => p.2 < q.2) c →
      (c.map Prod.fst).Nodup →
      c.any (fun p => p.1 == sig) = false →
      (∀ p ∈ c, p.2 < now) →
      (c.length ≤ maxCache →
        (add_processed_signature maxCache c sig now).length ≤ maxCache) ∧
      (c.length = maxCache →
        add_processed_signature maxCache c sig now =
          (c ++ [(sig, now)]).drop (maxCache + 1 - maxCache * 3 / 4) ∧
        (add_processed_signature maxCache c sig now).length =
          maxCache * 3 / 4) := by
  intro m c sig now hpw hnod hfresh hlt
  have hins : hmInsert c sig now = c ++ [(sig, now)] :=
    hmInsert_fresh c sig now hfresh
  have hpw2 : List.Pairwise (fun p q : String × Nat => p.2 < q.2)
      (c ++ [(sig, now)]) := by
    rw [List.pairwise_append]
    refine ⟨hpw, List.pairwise_singleton _ _, ?_⟩
    intro p hp q hq
    rw [List.mem_singleton] at hq
    subst hq
    exact hlt p hp
  have hnod2 : ((c ++ [(sig, now)]).map Prod.fst).Nodup := by
    rw [List.map_append, List.nodup_append]
    refine ⟨hnod, List.nodup_singleton _, ?_⟩
    intro a ha hb
    simp only [List.map_cons, List.map_nil, List.mem_singleton] at hb
    subst hb
    rw [List.mem_map] at ha
    obtain ⟨p, hp, hpa⟩ := ha
    have hne := List.any_eq_false.mp hfresh p hp
    apply hne
    rw [hpa]
    exact beq_self_eq_true _
  have hlen : (c ++ [(sig, now)]).length = c.length + 1 := by
    rw [List.length_append]
    rfl
  by_cases hgt : (c ++ [(sig, now)]).length > m
  · have hadd : add_processed_signature m c sig now =
        (c ++ [(sig, now)]).drop
          ((c ++ [(sig, now)]).length - m * 3 / 4) := by
      unfold add_processed_signature
      rw [hins, if_pos hgt, sortByTime_sorted _ hpw2]
      exact filter_not_mem_take (c ++ [(sig, now)]) _ hnod2
    have hq : m * 3 / 4 ≤ m := by omega
    constructor
    · intro hle
      have hm : c.length = m := by omega
      rw [hadd, List.length_drop]
      omega
    · intro hm
      constructor
      · rw [hadd, hlen, hm]
      · rw [hadd, List.length_drop]
        omega
  · have hadd : add_processed_signature m c sig now = c ++ [(sig, now)] := by
      unfold add_processed_signature
      rw [hins, if_neg hgt]
    constructor
    · intro _
      rw [hadd]
      omega
    · intro hm
      exfalso
      apply hgt
      omega

theorem c3_cache_bound_witness :
    (add_processed_signature 4 cacheW "e" 10).length ≤ 4 ∧
    add_processed_signature 4 cacheW "e" 10 =
      (cacheW ++ [("e", 10)]).drop (4 + 1 - 4 * 3 / 4) ∧
    (add_processed_signature 4 cacheW "e" 10).length = 4 * 3 / 4 :=
  ⟨(c3_cache_bound 4 cacheW "e" 10 (by decide) (by decide) (by decide)
      (by decide)).1 (by decide),
   (c3_cache_bound 4 cacheW "e" 10 (by decide) (by decide) (by decide)
      (by decide)).2 (by decide)⟩

/-- C6: the decoders are NOT total — `parse_buyback_event` panics (rather
than returning "nothing decoded") on a transaction whose log line contains
a heuristic marker plus multi-byte characters that lengthen under
`to_lowercase`, because `extract_lamports_from_log` slices the original
line at a byte offset computed on the lowercased copy. -/
theorem c6_buyback_parse_panics :
    parse_buyback_event programIdB 0 panicTx = .error .panic := by rfl

theorem mintScanLogs_none (pid : Bytes) :
    ∀ (logs : List Bytes) (flag : Bool),
      (∀ log ∈ logs, containsSub log pdataMark = false) →
      mintScanLogs pid logs flag = none := by
  intro logs
  induction logs with
  | nil => intro flag _; rfl
  | cons log rest ih =>
      intro flag h
      have hlog := h log (by simp)
      unfold mintScanLogs
      rw [hlog]
      simp only [Bool.false_and, Bool.false_eq_true, if_false]
      exact ih _ (fun l hl => h l (by simp [hl]))

/-- C8 counterexample: the fallback gives up when the transaction's account
keys cannot be extracted — the log line carries the mint marker and quoted
name/symbol fields (and no tagged payload), yet on a binary-encoded
transaction `parse_mint_event` returns `none` instead of a `MintEvent` with
name and symbol populated. -/
theorem c8_fallback_needs_accounts :
    containsSub fbLogW (strB "Instruction: Mint") = true ∧
    extract_field_from_log fbLogW (strB "name") = some (strB "Test NFT") ∧
    extract_field_from_log fbLogW (strB "symbol") = some (strB "TEST") ∧
    containsSub fbLogW pdataMark = false ∧
    parse_mint_event programIdB 99 fbTxBinary = none := by
  refine ⟨by decide, by decide, by decide, by decide, by rfl⟩

/-- C8 (amended): on a transaction whose logs contain no `Program data:`
line, whose fallback scan finds the mint marker and extracts a name and a
symbol, and whose message is JSON-encoded with at least two account keys,
`parse_mint_event` returns a `MintEvent` whose name and symbol are the
extracted values (minter/mint being the first two account keys and the
timestamp the synthesized clock value). -/
theorem c8_fallback_populates (pid : Bytes) (now : Int)
    (tx : EncodedConfirmedTx) (meta : TxMeta) (n s : Bytes)
    (u : Option Bytes) (minter mint : Bytes) :
    tx.meta = some meta →
    (∀ log ∈ extract_log_messages meta, containsSub log pdataMark = false) →
    mintFallbackScan (extract_log_messages meta) (false, none, none, none) =
      (true, some n, some s, u) →
    extract_accounts_from_transaction tx = some (minter, mint) →
    parse_mint_event pid now tx =
      some ⟨minter, mint, n, s, u.getD [], now⟩ := by
  intro hmeta hnopd hscan hacc
  unfold parse_mint_event
  rw [hmeta]
  dsimp only
  rw [mintScanLogs_none pid _ false hnopd]
  unfold parse_mint_event_fallback
  rw [hscan]
  dsimp only
  rw [hacc]
  simp

theorem c8_fallback_populates_witness :
    parse_mint_event programIdB 99 fbTxJson =
      some ⟨strB "Minter111", strB "Mint222", strB "Test NFT", strB "TEST",
            [], 99⟩ :=
  c8_fallback_populates programIdB 99 fbTxJson ⟨some [fbLogW]⟩
    (strB "Test NFT") (strB "TEST") none (strB "Minter111") (strB "Mint222")
    rfl (by decide) (by decide) rfl

theorem containsSub_of_isPrefixOf {h p : Bytes} (hp : p.isPrefixOf h = true) :
    containsSub h p = true := by
  unfold containsSub
  rw [List.any_eq_true]
  refine ⟨0, ?_, ?_⟩
  · rw [List.mem_range]
    omega
  · simpa using hp

theorem containsSub_false_of_longer {h p : Bytes}
    (hl : h.length < p.length) : containsSub h p = false := by
  unfold containsSub
  rw [List.any_eq_false]
  intro i _
  intro hpre
  have := (List.isPrefixOf_iff_prefix.mp hpre).length_le
  rw [List.length_drop] at this
  omega

theorem containsSub_get? {h p : Bytes} (hc : containsSub h p = true) :
    ∃ i, ∀ k, k < p.length → h.get? (i + k) = p.get? k := by
  unfold containsSub at hc
  rw [List.any_eq_true] at hc
  obtain ⟨i, _, hpre⟩ := hc
  obtain ⟨rest, hrest⟩ := List.isPrefixOf_iff_prefix.mp hpre
  refine ⟨i, fun k hk => ?_⟩
  rw [← List.get?_drop, ← hrest]
  rw [List.get?_append hk]

theorem dataLine_space_positions (payload : Bytes) (j : Nat)
    (hj : (pdataMarkSp ++ base64Encode payload).get? j = some 32) :
    j = 7 ∨ j = 13 := by
  by_cases hlt : j < 14
  · have hlen : pdataMarkSp.length = 14 := by decide
    rw [List.get?_append (by rw [hlen]; exact hlt)] at hj
    interval_cases j <;> revert hj <;> decide
  · have hlen : pdataMarkSp.length = 14 := by decide
    rw [List.get?_append_right (by omega)] at hj
    rw [hlen] at hj
    have hmem : (32 : Nat) ∈ base64Encode payload := List.get?_mem hj
    have := base64Encode_not_ws hmem
    simp [isWsByte] at this

theorem no_success_in_dataLine (payload : Bytes) :
    containsSub (pdataMarkSp ++ base64Encode payload)
      (successMark programIdB) = false := by
  cases hc : containsSub (pdataMarkSp ++ base64Encode payload)
      (successMark programIdB)
  · rfl
  · exfalso
    obtain ⟨i, hpt⟩ := containsSub_get? hc
    have hlen : (successMark programIdB).length = 60 := by decide
    have h7 : (successMark programIdB).get? 7 = some 32 := by decide
    have h52 : (successMark programIdB).get? 52 = some 32 := by decide
    have ha := hpt 7 (by omega)
    have hb := hpt 52 (by omega)
    rw [h7] at ha
    rw [h52] at hb
    have hc1 := dataLine_space_positions payload _ ha
    have hc2 := dataLine_space_positions payload _ hb
    omega

theorem dropPrefixB_append (p r : Bytes) : dropPrefixB p (p ++ r) = some r := by
  unfold dropPrefixB
  rw [if_pos (List.isPrefixOf_iff_prefix.mpr (List.prefix_append p r))]
  rw [List.drop_left]

theorem leBytes_length (k : Nat) : ∀ n, (leBytes k n).length = k := by
  induction k with
  | zero => intro n; rfl
  | succ m ih =>
      intro n
      show (n % 256 :: leBytes m (n / 256)).length = m + 1
      rw [List.length_cons, ih]

theorem leBytes_lt (k : Nat) : ∀ n, ∀ x ∈ leBytes k n, x < 256 := by
  induction k with
  | zero => intro n x hx; simp [leBytes] at hx
  | succ m ih =>
      intro n x hx
      rw [show leBytes (m + 1) n = n % 256 :: leBytes m (n / 256) from rfl,
        List.mem_cons] at hx
      rcases hx with h | h
      · subst h
        exact Nat.mod_lt n (by omega)
      · exact ih (n / 256) x h

theorem leValue_leBytes (k : Nat) : ∀ n, n < 256 ^ k →
    leValue (leBytes k n) = n := by
  induction k with
  | zero =>
      intro n h
      rw [pow_zero] at h
      interval_cases n
      rfl
  | succ m ih =>
      intro n h
      show leValue (n % 256 :: leBytes m (n / 256)) = n
      have hv : leValue (n % 256 :: leBytes m (n / 256)) =
          n % 256 + 256 * leValue (leBytes m (n / 256)) := rfl
      rw [hv, ih (n / 256) (by
        rw [Nat.div_lt_iff_lt_mul (by omega : 0 < 256)]
        calc n < 256 ^ (m + 1) := h
        _ = 256 ^ m * 256 := by rw [pow_succ]
        )]
      omega

theorem borshDecodeString_encode (s rest : Bytes) (hlen : s.length < 2 ^ 32)
    (hv : utf8Valid s = true) :
    borshDecodeString (borshEncodeString s ++ rest) = some (s, rest) := by
  unfold borshDecodeString borshEncodeString
  rw [List.append_assoc]
  have hl4 : (leBytes 4 s.length).length = 4 := leBytes_length 4 _
  have hlen_all : (leBytes 4 s.length ++ (s ++ rest)).length =
      4 + (s.length + rest.length) := by
    rw [List.length_append, List.length_append, hl4]
  rw [if_neg (by rw [hlen_all]; omega)]
  rw [List.take_left' hl4, List.drop_left' hl4]
  rw [leValue_leBytes 4 s.length (by norm_num at hlen ⊢; omega)]
  rw [if_neg (by rw [List.length_append]; omega)]
  rw [List.take_left' rfl, List.drop_left' rfl]
  rw [if_pos hv]

theorem borshDecodeMint_encode (e : RawMintEvent)
    (hm : e.minter.length = 32) (hmi : e.mint.length = 32)
    (h1 : e.name.length < 2 ^ 32) (hv1 : utf8Valid e.name = true)
    (h2 : e.symbol.length < 2 ^ 32) (hv2 : utf8Valid e.symbol = true)
    (h3 : e.uri.length < 2 ^ 32) (hv3 : utf8Valid e.uri = true)
    (hts1 : -2 ^ 63 ≤ e.timestamp) (hts2 : e.timestamp < 2 ^ 63) :
    borshDecodeMint (borshEncodeMint e) = some e := by
  have hmod1 : (0 : Int) ≤ e.timestamp % 2 ^ 64 := by
    apply Int.emod_nonneg
    norm_num
  have hmod2 : e.timestamp % 2 ^ 64 < 2 ^ 64 := by
    apply Int.emod_lt_of_pos
    norm_num
  have hcast : ((e.timestamp % 2 ^ 64).toNat : Int) = e.timestamp % 2 ^ 64 :=
    Int.toNat_of_nonneg hmod1
  have hn64 : (e.timestamp % 2 ^ 64).toNat < 2 ^ 64 := by omega
  unfold borshDecodeMint borshEncodeMint
  have hlen8 : (leBytes 8 (e.timestamp % 2 ^ 64).toNat).length = 8 :=
    leBytes_length 8 _
  have hlen_ge : 64 ≤ (e.minter ++ (e.mint ++ (borshEncodeString e.name ++
      (borshEncodeString e.symbol ++ (borshEncodeString e.uri ++
        leBytes 8 (e.timestamp % 2 ^ 64).toNat))))).length := by
    rw [List.length_append, List.length_append, hm, hmi]
    omega
  rw [if_neg (by omega)]
  have hdrop64 : ∀ r : Bytes, (e.minter ++ (e.mint ++ r)).drop 64 = r := by
    intro r
    rw [show (64 : Nat) = 32 + 32 from rfl, ← List.drop_drop,
      List.drop_left' hm, List.drop_left' hmi]
  have hs1 : borshDecodeString (borshEncodeString e.name ++
      (borshEncodeString e.symbol ++ (borshEncodeString e.uri ++
        leBytes 8 (e.timestamp % 2 ^ 64).toNat))) =
      some (e.name, borshEncodeString e.symbol ++ (borshEncodeString e.uri ++
        leBytes 8 (e.timestamp % 2 ^ 64).toNat)) :=
    borshDecodeString_encode _ _ h1 hv1
  have hs2 : borshDecodeString (borshEncodeString e.symbol ++
      (borshEncodeString e.uri ++ leBytes 8 (e.timestamp % 2 ^ 64).toNat)) =
      some (e.symbol, borshEncodeString e.uri ++
        leBytes 8 (e.timestamp % 2 ^ 64).toNat) :=
    borshDecodeString_encode _ _ h2 hv2
  have hs3 : borshDecodeString (borshEncodeString e.uri ++
      leBytes 8 (e.timestamp % 2 ^ 64).toNat) =
      some (e.uri, leBytes 8 (e.timestamp % 2 ^ 64).toNat) :=
    borshDecodeString_encode _ _ h3 hv3
  have hlv : leValue (leBytes 8 (e.timestamp % 2 ^ 64).toNat) =
      (e.timestamp % 2 ^ 64).toNat :=
    leValue_leBytes 8 _ (by norm_num at hn64 ⊢; omega)
  simp only [List.take_left' hm, List.drop_left' hm, List.take_left' hmi,
    hdrop64, hs1, hs2, hs3, hlen8, reduceIte, hlv]
  by_cases hpos : (0 : Int) ≤ e.timestamp
  · have hmod : e.timestamp % 2 ^ 64 = e.timestamp := by omega
    rw [if_pos (by omega)]
    simp only [Option.some.injEq]
    have hts : ((e.timestamp % 2 ^ 64).toNat : Int) = e.timestamp := by omega
    rw [hts]
  · have hmod : e.timestamp % 2 ^ 64 = e.timestamp + 2 ^ 64 := by omega
    rw [if_neg (by omega)]
    simp only [Option.some.injEq]
    have hts : ((e.timestamp % 2 ^ 64).toNat : Int) - 2 ^ 64 = e.timestamp := by
      omega
    rw [hts]

theorem containsSub_self (s : Bytes) : containsSub s s = true :=
  containsSub_of_isPrefixOf
    (List.isPrefixOf_iff_prefix.mpr (List.prefix_refl s))

theorem borshEncodeMint_lt (e : RawMintEvent)
    (hm : ∀ b ∈ e.minter, b < 256) (hmi : ∀ b ∈ e.mint, b < 256)
    (hn : ∀ b ∈ e.name, b < 256) (hsy : ∀ b ∈ e.symbol, b < 256)
    (hu : ∀ b ∈ e.uri, b < 256) :
    ∀ b ∈ borshEncodeMint e, b < 256 := by
  intro b hb
  unfold borshEncodeMint borshEncodeString at hb
  simp only [List.mem_append] at hb
  rcases hb with h | h | (h | h) | (h | h) | (h | h) | h
  · exact hm b h
  · exact hmi b h
  · exact leBytes_lt 4 _ b h
  · exact hn b h
  · exact leBytes_lt 4 _ b h
  · exact hsy b h
  · exact leBytes_lt 4 _ b h
  · exact hu b h
  · exact leBytes_lt 8 _ b h

theorem try_parse_tagged (raw : RawMintEvent)
    (hm : raw.minter.length = 32) (hmb : ∀ b ∈ raw.minter, b < 256)
    (hmi : raw.mint.length = 32) (hmib : ∀ b ∈ raw.mint, b < 256)
    (h1 : raw.name.length < 2 ^ 32) (h1b : ∀ b ∈ raw.name, b < 256)
    (hv1 : utf8Valid raw.name = true)
    (h2 : raw.symbol.length < 2 ^ 32) (h2b : ∀ b ∈ raw.symbol, b < 256)
    (hv2 : utf8Valid raw.symbol = true)
    (h3 : raw.uri.length < 2 ^ 32) (h3b : ∀ b ∈ raw.uri, b < 256)
    (hv3 : utf8Valid raw.uri = true)
    (hts1 : -2 ^ 63 ≤ raw.timestamp) (hts2 : raw.timestamp < 2 ^ 63) :
    try_parse_mint_event_from_log
      (pdataMarkSp ++ base64Encode (mintEventDisc ++ borshEncodeMint raw)) =
      some (mintEventOfRaw raw) := by
  unfold try_parse_mint_event_from_log
  rw [dropPrefixB_append]
  dsimp only
  have htrim : trimB (base64Encode (mintEventDisc ++ borshEncodeMint raw)) =
      base64Encode (mintEventDisc ++ borshEncodeMint raw) :=
    trimB_eq_self (fun x hx => base64Encode_not_ws hx)
  rw [htrim]
  have hbytes : ∀ b ∈ mintEventDisc ++ borshEncodeMint raw, b < 256 := by
    intro b hb
    rw [List.mem_append] at hb
    rcases hb with h | h
    · have : ∀ b ∈ mintEventDisc, b < 256 := by decide
      exact this b h
    · exact borshEncodeMint_lt raw hmb hmib h1b h2b h3b b h
  rw [base64_roundtrip hbytes]
  dsimp only
  have hlend : mintEventDisc.length = 8 := by decide
  have hlen : (mintEventDisc ++ borshEncodeMint raw).length =
      8 + (borshEncodeMint raw).length := by
    rw [List.length_append, hlend]
  rw [if_neg (by rw [hlen]; omega)]
  rw [List.take_left' hlend, if_pos rfl, List.drop_left' hlend]
  rw [borshDecodeMint_encode raw hm hmi h1 hv1 h2 hv2 h3 hv3 hts1 hts2]

theorem mintFallbackScan_no_marker :
    ∀ (logs : List Bytes) (a b c : Option Bytes),
      (∀ log ∈ logs,
        containsSub log (strB "Instruction: Mint") = false ∧
        containsSub log (strB "Instruction: mint") = false ∧
        containsSub log (strB "mint_nft") = false) →
      mintFallbackScan logs (false, a, b, c) = (false, a, b, c) := by
  intro logs
  induction logs with
  | nil => intro a b c h; rfl
  | cons log rest ih =>
      intro a b c h
      obtain ⟨h1, h2, h3⟩ := h log (by simp)
      unfold mintFallbackScan
      rw [h1, h2, h3]
      simp only [Bool.or_false, Bool.false_eq_true, if_false]
      exact ih a b c (fun l hl => h l (by simp [hl]))

theorem dataLine_contains_pdata (payload : Bytes) :
    containsSub (pdataMarkSp ++ base64Encode payload) pdataMark = true := by
  have hsp : pdataMarkSp = pdataMark ++ [32] := by decide
  rw [hsp, List.append_assoc]
  exact containsSub_of_isPrefixOf
    (List.isPrefixOf_iff_prefix.mpr (List.prefix_append _ _))

theorem mint_tagged_decodes (raw : RawMintEvent) (tx : EncodedConfirmedTx)
    (now : Int)
    (hm : raw.minter.length = 32) (hmb : ∀ b ∈ raw.minter, b < 256)
    (hmi : raw.mint.length = 32) (hmib : ∀ b ∈ raw.mint, b < 256)
    (h1 : raw.name.length < 2 ^ 32) (h1b : ∀ b ∈ raw.name, b < 256)
    (hv1 : utf8Valid raw.name = true)
    (h2 : raw.symbol.length < 2 ^ 32) (h2b : ∀ b ∈ raw.symbol, b < 256)
    (hv2 : utf8Valid raw.symbol = true)
    (h3 : raw.uri.length < 2 ^ 32) (h3b : ∀ b ∈ raw.uri, b < 256)
    (hv3 : utf8Valid raw.uri = true)
    (hts1 : -2 ^ 63 ≤ raw.timestamp) (hts2 : raw.timestamp < 2 ^ 63)
    (hmeta : tx.meta = some ⟨some [invokeMark programIdB,
      pdataMarkSp ++ base64Encode (mintEventDisc ++ borshEncodeMint raw),
      successMark programIdB]⟩) :
    parse_mint_event programIdB now tx = some (mintEventOfRaw raw) := by
  unfold parse_mint_event
  rw [hmeta]
  simp only [extract_log_messages, Option.getD_some]
  have h1i := containsSub_self (invokeMark programIdB)
  have h1s : containsSub (invokeMark programIdB) (successMark programIdB) =
      false := containsSub_false_of_longer (by decide)
  have h1d : containsSub (invokeMark programIdB) pdataMark = false := by decide
  have h2s := no_success_in_dataLine (mintEventDisc ++ borshEncodeMint raw)
  have h2d := dataLine_contains_pdata (mintEventDisc ++ borshEncodeMint raw)
  have htry := try_parse_tagged raw hm hmb hmi hmib h1 h1b hv1 h2 h2b hv2
    h3 h3b hv3 hts1 hts2
  have hscan : mintScanLogs programIdB [invokeMark programIdB,
      pdataMarkSp ++ base64Encode (mintEventDisc ++ borshEncodeMint raw),
      successMark programIdB] false = some (mintEventOfRaw raw) := by
    simp only [mintScanLogs, h1i, h1s, h1d, h2s, h2d, htry, ite_self,
      if_true, if_false, Bool.and_true, Bool.true_and, Bool.false_and,
      Bool.and_false, Bool.false_eq_true]
  rw [hscan]

theorem mint_corrupt_tag_none (payload : Bytes) (tx : EncodedConfirmedTx)
    (now : Int)
    (hlen : 8 ≤ payload.length)
    (hbytes : ∀ b ∈ payload, b < 256)
    (hne : payload.take 8 ≠ mintEventDisc)
    (hm1 : containsSub (pdataMarkSp ++ base64Encode payload)
      (strB "Instruction: Mint") = false)
    (hm2 : containsSub (pdataMarkSp ++ base64Encode payload)
      (strB "Instruction: mint") = false)
    (hm3 : containsSub (pdataMarkSp ++ base64Encode payload)
      (strB "mint_nft") = false)
    (hmeta : tx.meta = some ⟨some [invokeMark programIdB,
      pdataMarkSp ++ base64Encode payload, successMark programIdB]⟩) :
    parse_mint_event programIdB now tx = none := by
  unfold parse_mint_event
  rw [hmeta]
  simp only [extract_log_messages, Option.getD_some]
  have h1i := containsSub_self (invokeMark programIdB)
  have h1s : containsSub (invokeMark programIdB) (successMark programIdB) =
      false := containsSub_false_of_longer (by decide)
  have h1d : containsSub (invokeMark programIdB) pdataMark = false := by decide
  have h2s := no_success_in_dataLine payload
  have h2d := dataLine_contains_pdata payload
  have h3i : containsSub (successMark programIdB) (invokeMark programIdB) =
      false := by decide
  have h3s := containsSub_self (successMark programIdB)
  have h3d : containsSub (successMark programIdB) pdataMark = false := by
    decide
  have htry : try_parse_mint_event_from_log
      (pdataMarkSp ++ base64Encode payload) = none := by
    unfold try_parse_mint_event_from_log
    rw [dropPrefixB_append]
    dsimp only
    rw [trimB_eq_self (fun x hx => base64Encode_not_ws hx),
      base64_roundtrip hbytes]
    dsimp only
    rw [if_neg (by omega), if_neg hne]
  have hscan : mintScanLogs programIdB [invokeMark programIdB,
      pdataMarkSp ++ base64Encode payload, successMark programIdB] false =
      none := by
    simp only [mintScanLogs, h1i, h1s, h1d, h2s, h2d, h3i, h3s, h3d, htry,
      ite_self, if_true, if_false, Bool.and_true, Bool.true_and,
      Bool.false_and, Bool.and_false, Bool.false_eq_true]
  rw [hscan]
  unfold parse_mint_event_fallback
  rw [mintFallbackScan_no_marker _ none none none ?_]
  · rfl
  · intro log hl
    simp only [List.mem_cons, List.not_mem_nil, or_false] at hl
    rcases hl with rfl | rfl | rfl
    · exact ⟨by decide, by decide, by decide⟩
    · exact ⟨hm1, hm2, hm3⟩
    · exact ⟨by decide, by decide, by decide⟩

/-- C7: tag-based decode correctness.  (1) For log lines consisting of the
target program's invoke line, a `Program data:` line whose base64 payload
is the MintEvent discriminator followed by a correctly Borsh-encoded
record, and the program's success line, `parse_mint_event` returns a
`MintEvent` whose minter, mint, name, symbol, uri and timestamp equal the
encoded values exactly (pubkeys rendered in base58, strings decoded from
UTF-8).  (2) For the same log shape whose payload is at least 8 bytes but
carries a corrupted tag, and whose data line contains none of the
heuristic mint markers, `parse_mint_event` returns `none`: the fallback
path is not triggered by well-formed-but-wrong-tag data. -/
theorem c7_tagged_decode :
    (∀ (raw : RawMintEvent) (tx : EncodedConfirmedTx) (now : Int),
      raw.minter.length = 32 → (∀ b ∈ raw.minter, b < 256) →
      raw.mint.length = 32 → (∀ b ∈ raw.mint, b < 256) →
      raw.name.length < 2 ^ 32 → (∀ b ∈ raw.name, b < 256) →
      utf8Valid raw.name = true →
      raw.symbol.length < 2 ^ 32 → (∀ b ∈ raw.symbol, b < 256) →
      utf8Valid raw.symbol = true →
      raw.uri.length < 2 ^ 32 → (∀ b ∈ raw.uri, b < 256) →
      utf8Valid raw.uri = true →
      -2 ^ 63 ≤ raw.timestamp → raw.timestamp < 2 ^ 63 →
      tx.meta = some ⟨some [invokeMark programIdB,
        pdataMarkSp ++ base64Encode (mintEventDisc ++ borshEncodeMint raw),
        successMark programIdB]⟩ →
      parse_mint_event programIdB now tx = some (mintEventOfRaw raw)) ∧
    (∀ (payload : Bytes) (tx : EncodedConfirmedTx) (now : Int),
      8 ≤ payload.length → (∀ b ∈ payload, b < 256) →
      payload.take 8 ≠ mintEventDisc →
      containsSub (pdataMarkSp ++ base64Encode payload)
        (strB "Instruction: Mint") = false →
      containsSub (pdataMarkSp ++ base64Encode payload)
        (strB "Instruction: mint") = false →
      containsSub (pdataMarkSp ++ base64Encode payload)
        (strB "mint_nft") = false →
      tx.meta = some ⟨some [invokeMark programIdB,
        pdataMarkSp ++ base64Encode payload, successMark programIdB]⟩ →
      parse_mint_event programIdB now tx = none) :=
  ⟨fun raw tx now hm hmb hmi hmib h1 h1b hv1 h2 h2b hv2 h3 h3b hv3 hts1
      hts2 hmeta =>
    mint_tagged_decodes raw tx now hm hmb hmi hmib h1 h1b hv1 h2 h2b hv2
      h3 h3b hv3 hts1 hts2 hmeta,
   fun p tx now hl hb hne hm1 hm2 hm3 hmeta =>
    mint_corrupt_tag_none p tx now hl hb hne hm1 hm2 hm3 hmeta⟩

set_option maxRecDepth 20000 in
/-- Closed instance of C7 at `testRaw`: the tagged transaction decodes to
exactly the encoded values, and the corrupted-tag variant decodes to
nothing. -/
theorem c7_tagged_decode_witness :
    parse_mint_event programIdB 5 testTx = some (mintEventOfRaw testRaw) ∧
    parse_mint_event programIdB 5 testTxBad = none :=
  ⟨c7_tagged_decode.1 testRaw testTx 5 (by decide) (by decide) (by decide)
    (by decide) (by decide) (by decide) (by decide) (by decide) (by decide)
    (by decide) (by decide) (by decide) (by decide) (by decide) (by decide)
    rfl,
   c7_tagged_decode.2 testPayloadBad testTxBad 5 (by decide) (by decide)
    (by decide) (by decide) (by decide) (by decide) rfl⟩

end AsciiIngest
